import Mathlib

/-!
# youtrack2github: the rate-limit-aware issue dispatcher

A shallow embedding of `main.go`: the batch driver `main`, the dispatcher
`addIssue` with its `doRequest` label and throttle wait loop, `getETA`,
`isLegacyToken` and `parseYouTrackIssues`.

* Go strings are Lean strings; Go `int`, `int64` and `time.Duration` are `Int`,
  wrapped to 64 bits by `wrap64` wherever Go arithmetic can overflow.
* The outside world (HTTP server, wall clock, file system, JSON and CSV
  libraries) is a record of oracles, `World`; the k-th call of `client.Do` is
  answered by `World.Do k`, the k-th call of `time.Now` by `World.Now k`.
* Every effect is appended to a chronological trace of `Event`s. `time.Sleep`
  is recorded there; what the clock reads afterwards is the choice of the world.
* The body of the request is a reader (`bytes.NewReader`, line 79): `Request.Body`
  is what is still unread, and a round trip of `client.Do` reads it to its end.
* `addIssue` is a transition system: `step` runs the code from one label to the
  next, `run` iterates it a given number of times.
-/

namespace Youtrack2Github

/-! ## Machine integers and errors -/

deriving instance DecidableEq for Except

/-- Two-complement wrap-around of a mathematical integer to the range of `int64`. -/
def wrap64 (x : Int) : Int := (x + 2 ^ 63) % 2 ^ 64 - 2 ^ 63

/-- Values of the Go interface `error` that this program can produce. -/
inductive GoError where
  /-- The value `errors.New(msg)`. -/
  | errorsNew (msg : String)
  /-- A `*strconv.NumError` of function `fn` on input `input`. -/
  | numError (fn : String) (input : String)
  /-- The error of `time.ParseDuration` on input `input`. -/
  | invalidDuration (input : String)
  /-- An error returned by a library call on the outside world (`json.Marshal`,
  `http.NewRequest`, `client.Do`, `os.ReadFile`, `gocsv.UnmarshalBytes`), with
  its text. -/
  | external (msg : String)
  deriving DecidableEq, Repr

/-! ## strconv -/

namespace strconv

/-- Decimal value of an ASCII digit. -/
def digit? (c : Char) : Option Nat :=
  if 48 ≤ c.toNat ∧ c.toNat ≤ 57 then some (c.toNat - 48) else none

/-- Value of a non-empty string of decimal digits read left to right,
`acc` being the value of the digits already read. -/
def digits? : List Char → Nat → Option Nat
  | [], acc => some acc
  | c :: cs, acc =>
    match digit? c with
    | none => none
    | some d => digits? cs (acc * 10 + d)

/-- Unsigned magnitude: `strconv.ParseUint(s, 10, 64)` up to the range check,
which `parseSigned` does on the mathematical value. -/
def magnitude? (cs : List Char) : Option Nat :=
  match cs with
  | [] => none
  | _ :: _ => digits? cs 0

/-- Common body of `strconv.ParseInt(s, 10, 64)` and of `strconv.Atoi(s)` on a
platform whose `int` has 64 bits: an optional sign, then one or more decimal
digits, the value being in the range of `int64`. -/
def parseSigned (fn : String) (s : String) : Except GoError Int :=
  match s.data with
  | [] => .error (.numError fn s)
  | c :: cs =>
    let neg : Bool := c = Char.ofNat 45
    let body : List Char := if c = Char.ofNat 43 ∨ c = Char.ofNat 45 then cs else c :: cs
    match magnitude? body with
    | none => .error (.numError fn s)
    | some un =>
      if neg = false ∧ 2 ^ 63 ≤ un then .error (.numError fn s)
      else if neg = true ∧ 2 ^ 63 < un then .error (.numError fn s)
      else .ok (if neg then - (un : Int) else (un : Int))

/-- The call `strconv.Atoi(s)`. -/
def Atoi (s : String) : Except GoError Int := parseSigned "Atoi" s

/-- The call `strconv.ParseInt(s, 10, 64)`. -/
def ParseInt (s : String) : Except GoError Int := parseSigned "ParseInt" s

end strconv

/-! ## time -/

namespace time

/-- A `time.Time` without monotonic reading: `sec` counts the seconds since
January 1 of year 1 (an `int64`), `nsec` the nanoseconds within the second. -/
structure Time where
  sec : Int
  nsec : Nat
  deriving DecidableEq, Repr

/-- Seconds from January 1 of year 1 to January 1 of 1970. -/
def unixToInternal : Int := (1969 * 365 + 1969 / 4 - 1969 / 100 + 1969 / 400) * 86400

/-- The call `time.Unix(sec, 0)`: the addition is done in `int64`. -/
def Unix (sec : Int) : Time := ⟨wrap64 (sec + unixToInternal), 0⟩

/-- The method `t.Before(u)` on wall-clock readings. -/
def Time.Before (t u : Time) : Bool :=
  decide (t.sec < u.sec) || (decide (t.sec = u.sec) && decide (t.nsec < u.nsec))

/-- The method `t.Unix()`: seconds since January 1 of 1970, computed in `int64`. -/
def Time.Unix (t : Time) : Int := wrap64 (t.sec - unixToInternal)

/-- The call `time.ParseDuration(fmt.Sprintf("%ds", v))` for a positive `int64`
value `v`: the duration in nanoseconds, or an error when `v` seconds do not fit
in an `int64` count of nanoseconds (`v > (1 << 63) / 1e9`). -/
def ParseDurationSeconds (v : Int) : Except GoError Int :=
  if v > 2 ^ 63 / 10 ^ 9 then .error (.invalidDuration (toString v ++ "s"))
  else .ok (v * 10 ^ 9)

end time

open time

/-! ## strings -/

namespace strings

/-- The call `strings.HasPrefix(s, pre)`. -/
def HasPrefix (s pre : String) : Bool :=
  decide (pre.length ≤ s.length) && decide (s.data.take pre.length = pre.data)

/-- Pieces of `cs` between the occurrences of `sep` (one more than there are
occurrences). -/
def splitChars (sep : Char) : List Char → List (List Char)
  | [] => [[]]
  | c :: cs =>
    if c = sep then [] :: splitChars sep cs
    else
      match splitChars sep cs with
      | [] => [[c]]
      | l :: ls => (c :: l) :: ls

/-- The call `strings.Split(s, sep)` for a separator of one character. -/
def Split (s : String) (sep : Char) : List String :=
  (splitChars sep s.data).map String.mk

/-- The call `strings.ReplaceAll(s, old, "")` for an `old` of one character. -/
def ReplaceAll (s : String) (old : Char) : String :=
  String.mk (s.data.filter (fun c => decide (c ≠ old)))

end strings

/-- The double quote character. -/
def quoteChar : Char := Char.ofNat 34

/-- The line feed character. -/
def newlineChar : Char := Char.ofNat 10

/-! ## Records -/

/-- One row of the YouTrack export. -/
structure YouTrackIssue where
  IssueId : String
  Project : String
  Tags : String
  Summary : String
  Reporter : String
  Created : String
  Updated : String
  Resolved : String
  Priority : String
  Motivation : String
  State : String
  Area : String
  Description : String
  Votes : String
  deriving DecidableEq, Repr

/-- Payload of the issue creation call. -/
structure GitHubIssue where
  Title : String
  Body : String
  Assignees : List String
  Milestone : Int
  Labels : List String
  deriving DecidableEq, Repr

/-! ## getETA and isLegacyToken -/

/-- The function `getETA(t)`, `now` being the value its call of `time.Now()`
returns. -/
def getETA (t now : Time) : Except GoError Int :=
  let remaining := wrap64 (t.Unix - now.Unix)
  if remaining ≤ 0 then .error (.errorsNew "ETA is less than or equal to 0")
  else ParseDurationSeconds remaining

/-- The function `isLegacyToken`. -/
def isLegacyToken (token : String) : Bool := strings.HasPrefix token "ghp_"

/-! ## HTTP values, events and the outside world -/

/-- An `http.Header`: the values in the order they were added, under
canonical keys. -/
abbrev Header := List (String × String)

/-- The bytes of a header field name (`validHeaderFieldByte` of `net/textproto`):
letters, digits and the token punctuation of RFC 7230. -/
def validHeaderFieldByte (c : Char) : Bool :=
  decide ((48 ≤ c.toNat ∧ c.toNat ≤ 57) ∨ (65 ≤ c.toNat ∧ c.toNat ≤ 90) ∨
    (97 ≤ c.toNat ∧ c.toNat ≤ 122) ∨
    c.toNat ∈ [33, 35, 36, 37, 38, 39, 42, 43, 45, 46, 94, 95, 96, 124, 126])

/-- The canonical spelling of a field name: upper case at the start and after
a hyphen, lower case elsewhere; `upper` tells whether the next letter is one to
write in upper case. -/
def canonicalChars : Bool → List Char → List Char
  | _, [] => []
  | upper, c :: cs =>
    (if upper then c.toUpper else c.toLower) ::
      canonicalChars (decide (c = Char.ofNat 45)) cs

/-- The call `textproto.CanonicalMIMEHeaderKey(s)`, which `http.Header` applies
to every key: a key with a byte that is no field name byte is left as it is. -/
def CanonicalMIMEHeaderKey (s : String) : String :=
  if s.data.all validHeaderFieldByte then String.mk (canonicalChars true s.data) else s

/-- The method `h.Get(key)`: the first value under the canonical spelling of
`key`, the empty string when there is none. -/
def Header.Get (h : Header) (key : String) : String :=
  match h.find? (fun kv => kv.1 == CanonicalMIMEHeaderKey key) with
  | some kv => kv.2
  | none => ""

/-- The method `h.Add(key, value)`: the value is stored under the canonical
spelling of `key`. -/
def Header.Add (h : Header) (key value : String) : Header :=
  h ++ [(CanonicalMIMEHeaderKey key, value)]

/-- An `*http.Request` as `client.Do` finds it. `Body` holds what can still be
read from the body reader: `bytes.NewReader(data)` starts it at `data`, and
a round trip reads it to its end. -/
structure Request where
  Method : String
  URL : String
  Header : Header
  Body : String
  deriving DecidableEq, Repr

/-- The part of an `*http.Response` that the program looks at. -/
structure Response where
  StatusCode : Int
  Header : Header
  deriving DecidableEq, Repr

/-- Effects of the program on the outside world, in the order they happen. -/
inductive Event where
  /-- The call `client.Do(req)`, with the request as it is handed over and the
  answer (a response, or the text of the transport error). -/
  | send (req : Request) (answer : Except String Response)
  /-- A reading of `time.Now()`. -/
  | now (t : Time)
  /-- The statement `time.Sleep(d)`. -/
  | sleep (d : Int)
  /-- The line "Waiting ... to pass rate limit threshold" of the log. -/
  | logWaiting (eta : Int)
  /-- A line written by `fmt.Println`. -/
  | println (msg : String)
  /-- The call `addIssue(owner, repoName, token, ytIssue, label, milestone)`. -/
  | call (owner repoName token : String) (ytIssue : YouTrackIssue) (label : String)
      (milestone : Int)
  /-- The line "Issue ... created" of the log. -/
  | logCreated (issueId : String)
  /-- The line "Unable to add issue ...: ..." of the log. -/
  | logUnable (issueId : String) (err : GoError)

/-- The outside world as oracles. The program is deterministic, so every
behaviour of the server and of the clock, also one that depends on what the
program did before, is one choice of `Do` and `Now`; a statement for every
`World` is a statement for every server and every clock. -/
structure World where
  /-- The call `json.Marshal(issue)`. -/
  Marshal : GitHubIssue → Except String String
  /-- The error of `http.NewRequest` on a URL it cannot parse. -/
  urlError : String → Option String
  /-- The answer to the k-th call of `client.Do`. -/
  Do : Nat → Except String Response
  /-- The value of the k-th call of `time.Now()`. -/
  Now : Nat → Time
  /-- The call `os.ReadFile(path)`. -/
  ReadFile : String → Except String String
  /-- The call `gocsv.UnmarshalBytes(data, &youtrackIssues)`. -/
  UnmarshalBytes : String → Except String (List YouTrackIssue)

/-- What has happened so far. -/
structure St where
  /-- Number of calls of `client.Do`. -/
  sends : Nat
  /-- Number of calls of `time.Now()`. -/
  reads : Nat
  /-- All effects, oldest first. -/
  trace : List Event

/-- The state before anything has happened. -/
def St.start : St := ⟨0, 0, []⟩

/-- Appends an event to the trace. -/
def St.emit (s : St) (e : Event) : St := { s with trace := s.trace ++ [e] }

/-! ## addIssue -/

/-- The call `http.NewRequest(method, url, bytes.NewReader(data))`. -/
def NewRequest (w : World) (method url data : String) : Except GoError Request :=
  match w.urlError url with
  | some e => .error (.external e)
  | none => .ok { Method := method, URL := url, Header := [], Body := data }

/-- Lines 67 to 86 of `addIssue`: the request, or the error returned before
anything is sent. -/
def buildRequest (w : World) (owner repoName token : String) (ytIssue : YouTrackIssue)
    (label : String) (milestone : Int) : Except GoError Request :=
  let uri := "https://api.github.com/repos/" ++ owner ++ "/" ++ repoName ++ "/issues"
  let issue : GitHubIssue :=
    { Title := ytIssue.Summary
      Body := ytIssue.Description
      Assignees := [owner]
      Labels := [label]
      Milestone := milestone }
  match w.Marshal issue with
  | .error err => .error (.external err)
  | .ok data =>
    match NewRequest w "POST" uri data with
    | .error err => .error err
    | .ok req =>
      let h1 := req.Header.Add "Accept" "application/vnd.github+json"
      let h2 := h1.Add "Authorization" ("Bearer " ++ token)
      let h3 := h2.Add "X-GitHub-Api-Version" "2022-11-28"
      .ok { req with Header := h3 }

/-- Where `addIssue` stands. -/
inductive PC where
  /-- At the label `doRequest`. -/
  | doRequest
  /-- At the head of the `for` loop, `rateLimitResetTime` being set. -/
  | waitLoop (rateLimitResetTime : Time)
  /-- After `return err` (`none` is `nil`). -/
  | ret (err : Option GoError)
  deriving DecidableEq

/-- A configuration of `addIssue`: the label, the request object and the
state of the world. -/
structure Cfg where
  pc : PC
  req : Request
  st : St

/-- The error of line 122. -/
def statusError (code : Int) : GoError :=
  .errorsNew ("unable to create issue: status code: " ++ toString code)

/-- Lines 88 to 124, from a label to the next label or to a return. At
`doRequest`: the send, the two header parses, the throttle test of line 106 and
the status test of line 121. At the head of the wait loop: the guard of line
108, then `getETA`, the log line and the sleep, or the `goto`. The deferred
`Body.Close()` of line 93 has no effect that the program observes. -/
def step (w : World) (c : Cfg) : Cfg :=
  match c.pc with
  | .ret _ => c
  | .doRequest =>
    let answer := w.Do c.st.sends
    let st1 : St := { c.st with sends := c.st.sends + 1 }.emit (.send c.req answer)
    let req1 : Request := { c.req with Body := "" }
    match answer with
    | .error err => ⟨.ret (some (.external err)), req1, st1⟩
    | .ok resp =>
      match strconv.Atoi (resp.Header.Get "X-Ratelimit-Remaining") with
      | .error err => ⟨.ret (some err), req1, st1⟩
      | .ok rateLimit =>
        match strconv.ParseInt (resp.Header.Get "X-Ratelimit-Reset") with
        | .error err => ⟨.ret (some err), req1, st1⟩
        | .ok rateLimitReset =>
          let rateLimitResetTime := time.Unix rateLimitReset
          if rateLimit < 5 ∨ resp.StatusCode = 403 then
            ⟨.waitLoop rateLimitResetTime, req1, st1⟩
          else if resp.StatusCode ≠ 201 then
            ⟨.ret (some (statusError resp.StatusCode)), req1, st1⟩
          else ⟨.ret none, req1, st1⟩
  | .waitLoop rateLimitResetTime =>
    let now1 := w.Now c.st.reads
    let st1 : St := { c.st with reads := c.st.reads + 1 }.emit (.now now1)
    if now1.Before rateLimitResetTime then
      let now2 := w.Now st1.reads
      let st2 : St := { st1 with reads := st1.reads + 1 }.emit (.now now2)
      match getETA rateLimitResetTime now2 with
      | .error err => ⟨.ret (some err), c.req, st2⟩
      | .ok eta =>
        ⟨.waitLoop rateLimitResetTime, c.req, (st2.emit (.logWaiting eta)).emit (.sleep eta)⟩
    else ⟨.doRequest, c.req, st1⟩

/-- The configuration after `n` steps. -/
def run (w : World) : Nat → Cfg → Cfg
  | 0, c => c
  | n + 1, c => run w n (step w c)

/-- Result of a call that was given `fuel` steps: `result` is `none` while the
call has not returned, else the returned error (`none` is `nil`). -/
structure Outcome where
  result : Option (Option GoError)
  st : St

/-- The returned error of a configuration, if it has returned. -/
def PC.result : PC → Option (Option GoError)
  | .ret err => some err
  | _ => none

/-- The function `addIssue`, run for `fuel` steps from the state `st`. -/
def addIssue (w : World) (owner repoName token : String) (ytIssue : YouTrackIssue)
    (label : String) (milestone : Int) (fuel : Nat) (st : St) : Outcome :=
  match buildRequest w owner repoName token ytIssue label milestone with
  | .error err => ⟨some (some err), st⟩
  | .ok req =>
    let c := run w fuel ⟨.doRequest, req, st⟩
    ⟨c.pc.result, c.st⟩

/-! ## parseYouTrackIssues -/

/-- The loop of lines 156 to 163: `n` is the index of the next line. -/
def newDataLoop : Nat → List String → String → String
  | _, [], newData => newData
  | n, line :: rest, newData =>
    if n = 0 then
      let header := strings.ReplaceAll line quoteChar
      newDataLoop (n + 1) rest (newData ++ header ++ String.singleton newlineChar)
    else
      newDataLoop (n + 1) rest (newData ++ line ++ String.singleton newlineChar)

/-- The text that `parseYouTrackIssues` hands to the decoder for a file of
content `data` (lines 152 to 163). -/
def newData (data : String) : String :=
  newDataLoop 0 (strings.Split data newlineChar) ""

/-- The function `parseYouTrackIssues`. -/
def parseYouTrackIssues (w : World) (path : String) : Except GoError (List YouTrackIssue) :=
  match w.ReadFile path with
  | .error err => .error (.external err)
  | .ok data =>
    match w.UnmarshalBytes (newData data) with
    | .error err => .error (.external err)
    | .ok youtrackIssues => .ok youtrackIssues

/-! ## main -/

/-- How the process ends. -/
inductive Exit where
  /-- The call `os.Exit(code)`. -/
  | exit (code : Int)
  /-- The call `log.Panic(err)`. -/
  | panic (err : GoError)
  /-- The function `main` returned. -/
  | finished
  /-- A call of `addIssue` has not returned within its fuel. -/
  | blocked
  deriving DecidableEq

/-- The usage text of line 22. -/
def usageText : String :=
  "Wrong number of arguments\n" ++
    "Input in this form: ./github2youtrack token user repo inputFile label milestone"

/-- The guidance of line 41. -/
def guidanceText : String :=
  "Classic GitHub personal access token are disallowed\n" ++
    "Please create a fine-grained token at https://github.com/settings/personal-access-tokens/new"

/-- The notice of line 46. -/
def noticeText : String :=
  "Due to the API rate limiting, don" ++ String.singleton (Char.ofNat 39) ++
    "t create any issues on any projects on GitHub until I" ++
    String.singleton (Char.ofNat 39) ++ "m done!"

/-- The loop of lines 47 to 55 over the records still to dispatch; every call
of `addIssue` is given `fuel` steps. -/
def batchLoop (w : World) (user repo token label : String) (milestone : Int) (fuel : Nat) :
    List YouTrackIssue → St → Exit × St
  | [], st => (.finished, st)
  | issue :: rest, st =>
    let out := addIssue w user repo token issue label milestone fuel
      (st.emit (.call user repo token issue label milestone))
    match out.result with
    | none => (.blocked, out.st)
    | some err =>
      let st1 :=
        match err with
        | none => out.st.emit (.logCreated issue.IssueId)
        | some e => out.st.emit (.logUnable issue.IssueId e)
      batchLoop w user repo token label milestone fuel rest (st1.emit (.sleep (2 * 10 ^ 9)))

/-- The function `main` on the argument vector `args` (`os.Args`); the
conversion `int(milestone)` is the identity where `int` has 64 bits. -/
def main (w : World) (args : List String) (fuel : Nat) : Exit × St :=
  match args with
  | [_, token, user, repo, inputFile, label, milestoneArg] =>
    match strconv.ParseInt milestoneArg with
    | .error err => (.panic err, St.start)
    | .ok milestone =>
      match parseYouTrackIssues w inputFile with
      | .error err => (.panic err, St.start)
      | .ok youtrackIssues =>
        if isLegacyToken token then
          (.exit 0, St.start.emit (.println guidanceText))
        else
          batchLoop w user repo token label milestone fuel youtrackIssues
            (St.start.emit (.println noticeText))
  | _ => (.exit 0, St.start.emit (.println usageText))

/-- The records passed to `addIssue`, in the order of the calls. -/
def dispatched : List Event → List YouTrackIssue
  | [] => []
  | .call _ _ _ ytIssue _ _ :: es => ytIssue :: dispatched es
  | _ :: es => dispatched es

/-- The requests handed to `client.Do`, in the order of the calls. -/
def sentRequests : List Event → List Request
  | [] => []
  | .send req _ :: es => req :: sentRequests es
  | _ :: es => sentRequests es

/-- Every call of `addIssue` that the batch loop makes, from the state `st` on,
over the records still to dispatch, returns: the call for the first record
returns some `err` when it is given enough steps, and so does every call that
the loop makes after it has logged that outcome and slept. -/
def EveryCallReturns (w : World) (user repo token label : String) (milestone : Int) :
    List YouTrackIssue → St → Prop
  | [], _ => True
  | issue :: rest, st =>
    ∃ fuel err,
      (addIssue w user repo token issue label milestone fuel
        (st.emit (.call user repo token issue label milestone))).result = some err ∧
      EveryCallReturns w user repo token label milestone rest
        ((match err with
          | none =>
            (addIssue w user repo token issue label milestone fuel
              (st.emit (.call user repo token issue label milestone))).st.emit
              (.logCreated issue.IssueId)
          | some e =>
            (addIssue w user repo token issue label milestone fuel
              (st.emit (.call user repo token issue label milestone))).st.emit
              (.logUnable issue.IssueId e)).emit (.sleep (2 * 10 ^ 9)))

/-! ## Quoted and unquoted header rows -/

/-- The row `quoted` is the row `plain` with double quotes put in: `plain` has
no double quote, and `quoted` has the characters of `plain`, in order, and
double quotes among them. -/
inductive QuotedAs : List Char → List Char → Prop where
  /-- The empty row. -/
  | done : QuotedAs [] []
  /-- One more double quote in the quoted row. -/
  | quote {quoted plain : List Char} :
      QuotedAs quoted plain → QuotedAs (quoteChar :: quoted) plain
  /-- One more character, no double quote, in both rows. -/
  | keep {quoted plain : List Char} (c : Char) :
      c ≠ quoteChar → QuotedAs quoted plain → QuotedAs (c :: quoted) (c :: plain)

/-! ## Reading a trace -/

/-- The reset-instant that an answer announces: `rateLimitResetTime` of line 105. -/
def resetInstant : Except String Response → Option Time
  | .ok resp =>
    match strconv.ParseInt (resp.Header.Get "X-Ratelimit-Reset") with
    | .ok rateLimitReset => some (time.Unix rateLimitReset)
    | .error _ => none
  | .error _ => none

/-- What a reader of a trace keeps in mind: whether a request has been sent,
the reset-instant of the latest answer, the clock reading that the latest
event was (if it was one), and whether every re-send so far came right after
a clock reading that was not before the reset-instant of the answer before it. -/
structure Watch where
  answered : Bool
  reset : Option Time
  lastNow : Option Time
  ok : Bool

/-- The reader before the first event. -/
def Watch.start : Watch := ⟨false, none, none, true⟩

/-- The reader after one more event. -/
def Watch.next (s : Watch) : Event → Watch
  | .send _ answer =>
    { answered := true
      reset := resetInstant answer
      lastNow := none
      ok := s.ok && (!s.answered ||
        (match s.reset, s.lastNow with
          | some t, some c => !c.Before t
          | _, _ => false)) }
  | .now c => { s with lastNow := some c }
  | _ => { s with lastNow := none }

/-- The reader after a trace. -/
def Watch.after (trace : List Event) : Watch := trace.foldl Watch.next Watch.start

/-- The events `new` that a call has appended to `base` keep the reader
content, and the reader knows where the call stands. -/
def WatchInv (base : List Event) (c : Cfg) : Prop :=
  ∃ new, c.st.trace = base ++ new ∧ (Watch.after new).ok = true ∧
    match c.pc with
    | .doRequest =>
      (Watch.after new).answered = false ∨
        ∃ t cl, (Watch.after new).reset = some t ∧ (Watch.after new).lastNow = some cl ∧
          cl.Before t = false
    | .waitLoop t => (Watch.after new).answered = true ∧ (Watch.after new).reset = some t
    | .ret _ => True

/-! ## Servers and clocks -/

/-- A server that answers every send with rate-limit headers that parse and
with remaining below 5 or status 403. -/
def AlwaysThrottled (w : World) : Prop :=
  ∀ k, ∃ resp rateLimit rateLimitReset, w.Do k = .ok resp ∧
    strconv.Atoi (resp.Header.Get "X-Ratelimit-Remaining") = .ok rateLimit ∧
    strconv.ParseInt (resp.Header.Get "X-Ratelimit-Reset") = .ok rateLimitReset ∧
    (rateLimit < 5 ∨ resp.StatusCode = 403)

/-- A clock that eventually reaches each reset-instant: for the reset-instant
of every answer there is a reading from which on no reading is before it. -/
def ClockReachesResets (w : World) : Prop :=
  ∀ k t, resetInstant (w.Do k) = some t → ∃ j, ∀ i, j ≤ i → (w.Now i).Before t = false

/-- No call of `getETA` fails: whenever a reading is before the reset-instant
of an answer, `getETA` at the next reading yields a duration. -/
def ETAsSucceed (w : World) : Prop :=
  ∀ k t, resetInstant (w.Do k) = some t → ∀ i, (w.Now i).Before t = true →
    ∃ eta, getETA t (w.Now (i + 1)) = .ok eta

/-- No call of `getETA` made by the run from `c0` fails: whenever the run stands
at the head of the wait loop and the clock reading of the loop guard is before
the reset-instant, `getETA` yields a duration at the reading that follows. -/
def NoETAFailure (w : World) (c0 : Cfg) : Prop :=
  ∀ n t, (run w n c0).pc = .waitLoop t →
    (w.Now (run w n c0).st.reads).Before t = true →
    ∃ eta, getETA t (w.Now ((run w n c0).st.reads + 1)) = .ok eta

/-- The call is at `doRequest` or waits for the reset-instant of an answer. -/
def Waiting (w : World) (c : Cfg) : Prop :=
  c.pc = .doRequest ∨ ∃ t k, c.pc = .waitLoop t ∧ resetInstant (w.Do k) = some t

/-- The errors that `getETA` returns. -/
def IsETAError (e : GoError) : Prop :=
  e = .errorsNew "ETA is less than or equal to 0" ∨ ∃ input, e = .invalidDuration input

/-- The requests handed to `client.Do` in the first `k` sends of a call that
built `req`: the request with its body, then the same request with its body
reader at its end. -/
def sentSeq (req : Request) : Nat → List Request
  | 0 => []
  | k + 1 => req :: List.replicate k { req with Body := "" }

/-- After `k` sends the trace holds `sentSeq req k` after what `base` held, and
the request object is `req`, its body read once a send has happened. -/
def SentInv (base : List Event) (req : Request) (c : Cfg) : Prop :=
  ∃ k, sentRequests c.st.trace = sentRequests base ++ sentSeq req k ∧
    c.req = if k = 0 then req else { req with Body := "" }

/-! ## Concrete worlds -/

/-- The two rate-limit headers of an answer. -/
def rateHeaders (remaining reset : String) : Header :=
  [("X-Ratelimit-Remaining", remaining), ("X-Ratelimit-Reset", reset)]

/-- A world with the given server and clock: marshalling writes title and
body, every URL parses, there is no file. -/
def worldOf (answers : Nat → Except String Response) (clock : Nat → Time) : World where
  Marshal := fun issue => .ok (issue.Title ++ "|" ++ issue.Body)
  urlError := fun _ => none
  Do := answers
  Now := clock
  ReadFile := fun _ => .error "no such file"
  UnmarshalBytes := fun _ => .ok []

/-- A record with the given identifier, summary and description. -/
def recordOf (issueId summary description : String) : YouTrackIssue :=
  { IssueId := issueId, Project := "", Tags := "", Summary := summary, Reporter := "",
    Created := "", Updated := "", Resolved := "", Priority := "", Motivation := "",
    State := "", Area := "", Description := description, Votes := "" }

/-- A request at its first send. -/
def sampleRequest : Request :=
  { Method := "POST", URL := "https://api.github.com/repos/o/r/issues", Header := [],
    Body := "t|b" }

/-- A clock that stands still at the given Unix second. -/
def clockAt (unixSec : Int) : Nat → Time := fun _ => ⟨unixToInternal + unixSec, 0⟩

/-- A server that throttles the first send (status 403, remaining 3, reset at
Unix second 105) and accepts every later one, with a clock that reads Unix
second 100 twice and 105 from then on. -/
def throttledOnce : World :=
  worldOf
    (fun k => if k = 0 then .ok ⟨403, rateHeaders "3" "105"⟩
      else .ok ⟨201, rateHeaders "4999" "3600"⟩)
    (fun k => if k < 2 then ⟨unixToInternal + 100, 0⟩ else ⟨unixToInternal + 105, 0⟩)

/-- The request that `addIssue` builds in `worldOf` for owner "o",
repository "r", token "t", summary "s", description "d" and label "l", with
`body` still to be read. -/
def builtRequest (body : String) : Request :=
  { Method := "POST", URL := "https://api.github.com/repos/o/r/issues",
    Header := [("Accept", "application/vnd.github+json"), ("Authorization", "Bearer t"),
      ("X-Github-Api-Version", "2022-11-28")],
    Body := body }

/-- A server that answers every send with status 403, remaining 0 and reset at
Unix second 9223372036854775807, the largest `int64`, with a clock that stands
at Unix second 1700000000. -/
def farResetWorld : World :=
  worldOf (fun _ => .ok ⟨403, rateHeaders "0" "9223372036854775807"⟩) (clockAt 1700000000)

/-- A server that answers every send with status 403, remaining 0 and reset at
Unix second 100, with a clock that reads one nanosecond before that second
at first and that second from then on. -/
def crossingWorld : World :=
  worldOf (fun _ => .ok ⟨403, rateHeaders "0" "100"⟩)
    (fun i => if i = 0 then ⟨unixToInternal + 99, 999999999⟩ else ⟨unixToInternal + 100, 0⟩)

/-- The same server with a clock that reads Unix second 98 twice and Unix
second 200 from then on: the first wait sleeps two seconds. -/
def waitingWorld : World :=
  worldOf (fun _ => .ok ⟨403, rateHeaders "0" "100"⟩)
    (fun i => if i < 2 then ⟨unixToInternal + 98, 0⟩ else ⟨unixToInternal + 200, 0⟩)

/-- The same server with a clock that stands at Unix second 200. -/
def hammeredWorld : World :=
  worldOf (fun _ => .ok ⟨403, rateHeaders "0" "100"⟩) (clockAt 200)

/-- A server that answers the first send with status 500 and every later one
with status 201, never near the rate limit, and an export of two records. -/
def twoRecords : World :=
  { worldOf
      (fun k => if k = 0 then .ok ⟨500, rateHeaders "4999" "3600"⟩
        else .ok ⟨201, rateHeaders "4998" "3600"⟩)
      (clockAt 0) with
    ReadFile := fun _ => .ok "Issue Id,Summary,Description"
    UnmarshalBytes := fun _ => .ok [recordOf "Y-1" "s1" "d1", recordOf "Y-2" "s2" "d2"] }

/-- The server and clock of `hammeredWorld`, which throttle every send for ever,
with the export of two records of `twoRecords`. -/
def stuckTwoRecords : World :=
  { hammeredWorld with
    ReadFile := fun _ => .ok "Issue Id,Summary,Description"
    UnmarshalBytes := fun _ => .ok [recordOf "Y-1" "s1" "d1", recordOf "Y-2" "s2" "d2"] }

/-- A first line with its fields in double quotes. -/
def quotedHeader : String :=
  String.singleton quoteChar ++ "Issue Id" ++ String.singleton quoteChar ++ "," ++
    String.singleton quoteChar ++ "Summary" ++ String.singleton quoteChar

/-! ## Arithmetic of `int64` and of `time` -/

theorem wrap64_of_range (x : Int) (h1 : -2 ^ 63 ≤ x) (h2 : x < 2 ^ 63) : wrap64 x = x := by
  unfold wrap64
  rw [Int.emod_eq_of_lt (by omega) (by omega)]
  omega

theorem wrap64_ge (x : Int) : -2 ^ 63 ≤ wrap64 x := by
  unfold wrap64
  have := Int.emod_nonneg (x + 2 ^ 63) (show (2 ^ 64 : Int) ≠ 0 by norm_num)
  omega

theorem wrap64_lt (x : Int) : wrap64 x < 2 ^ 63 := by
  unfold wrap64
  have := Int.emod_lt_of_pos (x + 2 ^ 63) (show (0 : Int) < 2 ^ 64 by norm_num)
  omega

theorem unixToInternal_eq : unixToInternal = 62135596800 := by
  unfold unixToInternal
  norm_num

theorem Unix_sec (x : Int) (h1 : -2 ^ 63 ≤ x + unixToInternal) (h2 : x + unixToInternal < 2 ^ 63) :
    (time.Unix x).sec = x + unixToInternal := by
  simp only [time.Unix]
  exact wrap64_of_range _ h1 h2

theorem Before_Unix_iff (now : Time) (x : Int) :
    now.Before (time.Unix x) = true ↔ now.sec < (time.Unix x).sec := by
  simp [Time.Before, time.Unix]

/-- A successful `getETA` yields a positive duration. -/
theorem getETA_ok_pos (t now : Time) (d : Int) (h : getETA t now = .ok d) : 0 < d := by
  unfold getETA at h
  simp only at h
  split at h
  · exact absurd h (by simp)
  · rename_i hpos
    unfold ParseDurationSeconds at h
    split at h
    · exact absurd h (by simp)
    · injection h with h
      rw [← h]
      have : 0 < wrap64 (t.Unix - now.Unix) := by omega
      positivity

/-- The errors of `getETA`: the one of line 173 or the one of `time.ParseDuration`. -/
theorem getETA_error_kind (t now : Time) (e : GoError) (h : getETA t now = .error e) :
    e = .errorsNew "ETA is less than or equal to 0" ∨ ∃ s, e = .invalidDuration s := by
  unfold getETA at h
  simp only at h
  split at h
  · injection h with h
    exact Or.inl h.symm
  · unfold ParseDurationSeconds at h
    split at h
    · injection h with h
      exact Or.inr ⟨_, h.symm⟩
    · exact absurd h (by simp)

/-- The error of line 173 is returned exactly when the wrapped difference of
the two Unix readings is not positive. -/
theorem getETA_eta_error_iff (t now : Time) :
    getETA t now = .error (.errorsNew "ETA is less than or equal to 0") ↔
      wrap64 (t.Unix - now.Unix) ≤ 0 := by
  unfold getETA
  simp only
  split
  · simp [*]
  · rename_i hpos
    unfold ParseDurationSeconds
    split <;> simp [hpos]

/-! ## getETA against the loop guard -/

/-- C5, as stated, fails: for the reset-instant `time.Unix(-9223372036854775808, 0)`
and a clock reading in November 2023 the clock is not before the reset-instant,
yet `getETA` does not return the error "ETA is less than or equal to 0": the
`int64` subtraction of line 170 wraps around to a positive number of seconds,
which `time.ParseDuration` rejects with its own error. -/
theorem getETA_past_reset_without_eta_error :
    ¬ (getETA (time.Unix (-9223372036854775808)) ⟨unixToInternal + 1700000000, 0⟩ =
          .error (.errorsNew "ETA is less than or equal to 0") ↔
        Time.Before ⟨unixToInternal + 1700000000, 0⟩ (time.Unix (-9223372036854775808)) = false) := by
  have h1 : getETA (time.Unix (-9223372036854775808)) ⟨unixToInternal + 1700000000, 0⟩ =
      .error (.invalidDuration "9223372035154775808s") := by rfl
  have h2 : Time.Before ⟨unixToInternal + 1700000000, 0⟩ (time.Unix (-9223372036854775808)) =
      false := by rfl
  rw [h1, h2]
  simp

/-- C5, amended: for every `int64` value `x` and every clock reading `now` such
that neither `time.Unix(x, 0)`, nor `now.Unix()`, nor the subtraction
`t.Unix() - now.Unix()` of line 170 overflows `int64`, `getETA(time.Unix(x, 0))`
evaluated at `now` returns the error "ETA is less than or equal to 0" exactly
when `now` is not before the reset-instant; a reset-instant that is not in the
future never yields a duration; a duration that is returned is positive; and
the error does not occur when the loop guard holds at the same reading. -/
theorem getETA_error_exactly_when_not_before (x : Int) (now : Time)
    (hx : -2 ^ 63 ≤ x ∧ x + unixToInternal < 2 ^ 63)
    (hnow : -2 ^ 63 ≤ now.sec - unixToInternal ∧ now.sec < 2 ^ 63)
    (hsub : -2 ^ 63 ≤ x - (now.sec - unixToInternal) ∧
      x - (now.sec - unixToInternal) < 2 ^ 63) :
    (getETA (time.Unix x) now = .error (.errorsNew "ETA is less than or equal to 0") ↔
        now.Before (time.Unix x) = false) ∧
      (now.Before (time.Unix x) = false → ∀ d, getETA (time.Unix x) now ≠ .ok d) ∧
      (∀ d, getETA (time.Unix x) now = .ok d → 0 < d) ∧
      (now.Before (time.Unix x) = true →
        getETA (time.Unix x) now ≠ .error (.errorsNew "ETA is less than or equal to 0")) := by
  have hK := unixToInternal_eq
  have h0 : -2 ^ 63 ≤ x + unixToInternal := by rw [hK]; omega
  have hsec : (time.Unix x).sec = x + unixToInternal := Unix_sec x h0 hx.2
  have htU : (time.Unix x).Unix = x := by
    have hx2 : x < 2 ^ 63 := by
      have := hx.2
      rw [hK] at this
      omega
    have hcancel : x + unixToInternal - unixToInternal = x := by omega
    unfold Time.Unix
    rw [hsec, hcancel]
    exact wrap64_of_range x hx.1 hx2
  have hnU : now.Unix = now.sec - unixToInternal := by
    have hn2 : now.sec - unixToInternal < 2 ^ 63 := by
      have := hnow.2
      rw [hK]
      omega
    unfold Time.Unix
    exact wrap64_of_range _ hnow.1 hn2
  have hrem : wrap64 ((time.Unix x).Unix - now.Unix) = x - (now.sec - unixToInternal) := by
    rw [htU, hnU]
    exact wrap64_of_range _ hsub.1 hsub.2
  have hiff : getETA (time.Unix x) now = .error (.errorsNew "ETA is less than or equal to 0") ↔
      now.Before (time.Unix x) = false := by
    rw [getETA_eta_error_iff, hrem, ← Bool.not_eq_true, Before_Unix_iff, hsec]
    omega
  refine ⟨hiff, ?_, fun d hd => getETA_ok_pos _ _ d hd, ?_⟩
  · intro hb d hd
    rw [hiff.mpr hb] at hd
    exact absurd hd (by simp)
  · intro hb he
    rw [hiff.mp he] at hb
    exact absurd hb (by simp)

/-- An instance of `getETA_error_exactly_when_not_before`: reset-instant at Unix
second 100, clock at Unix second 99 and 5 nanoseconds. -/
theorem getETA_error_exactly_when_not_before_witness :
    (getETA (time.Unix 100) ⟨unixToInternal + 99, 5⟩ =
          .error (.errorsNew "ETA is less than or equal to 0") ↔
        Time.Before ⟨unixToInternal + 99, 5⟩ (time.Unix 100) = false) ∧
      (Time.Before ⟨unixToInternal + 99, 5⟩ (time.Unix 100) = false →
        ∀ d, getETA (time.Unix 100) ⟨unixToInternal + 99, 5⟩ ≠ .ok d) ∧
      (∀ d, getETA (time.Unix 100) ⟨unixToInternal + 99, 5⟩ = .ok d → 0 < d) ∧
      (Time.Before ⟨unixToInternal + 99, 5⟩ (time.Unix 100) = true →
        getETA (time.Unix 100) ⟨unixToInternal + 99, 5⟩ ≠
          .error (.errorsNew "ETA is less than or equal to 0")) :=
  getETA_error_exactly_when_not_before 100 ⟨unixToInternal + 99, 5⟩
    (by rw [unixToInternal_eq]; norm_num)
    (by simp only [unixToInternal_eq]; norm_num)
    (by simp only [unixToInternal_eq]; norm_num)

/-! ## strings -/

theorem ReplaceAll_idem (s : String) (old : Char) :
    strings.ReplaceAll (strings.ReplaceAll s old) old = strings.ReplaceAll s old := by
  unfold strings.ReplaceAll
  simp [List.filter_filter]

theorem ReplaceAll_of_not_mem (s : String) (old : Char) (h : old ∉ s.data) :
    strings.ReplaceAll s old = s := by
  unfold strings.ReplaceAll
  apply String.ext
  simp only
  rw [List.filter_eq_self]
  intro c hc
  simp only [ne_eq, decide_not, Bool.not_eq_true', decide_eq_false_iff_not]
  rintro rfl
  exact h hc

theorem ReplaceAll_not_mem (s : String) (old c : Char) (h : c ∉ s.data) :
    c ∉ (strings.ReplaceAll s old).data := by
  unfold strings.ReplaceAll
  simp only [List.mem_filter, not_and]
  intro hc
  exact absurd hc h

theorem splitChars_of_not_mem (sep : Char) (cs : List Char) (h : sep ∉ cs) :
    strings.splitChars sep cs = [cs] := by
  induction cs with
  | nil => rfl
  | cons c cs ih =>
    have hc : c ≠ sep := fun e => h (by simp [e])
    have hcs : sep ∉ cs := fun e => h (by simp [e])
    simp [strings.splitChars, hc, ih hcs]

theorem splitChars_append_sep (sep : Char) (hd rest : List Char) (h : sep ∉ hd) :
    strings.splitChars sep (hd ++ sep :: rest) = hd :: strings.splitChars sep rest := by
  induction hd with
  | nil => simp [strings.splitChars]
  | cons c cs ih =>
    have hc : c ≠ sep := fun e => h (by simp [e])
    have hcs : sep ∉ cs := fun e => h (by simp [e])
    simp [strings.splitChars, hc, ih hcs]

/-- Writing every piece of a split followed by the separator gives the text
back, followed by one separator. -/
theorem splitChars_join (sep : Char) (cs : List Char) :
    ((strings.splitChars sep cs).map (fun l => l ++ [sep])).flatten = cs ++ [sep] := by
  induction cs with
  | nil => rfl
  | cons c cs ih =>
    by_cases hc : c = sep
    · simp [strings.splitChars, hc, ih]
    · simp only [strings.splitChars, hc, if_false]
      cases hsp : strings.splitChars sep cs with
      | nil => simp [hsp] at ih
      | cons l ls =>
        rw [hsp] at ih
        simp only [List.map_cons, List.flatten_cons, List.cons_append] at ih ⊢
        rw [ih]

/-- From the second line on the loop copies every line, followed by a line feed. -/
theorem newDataLoop_succ_data (n : Nat) (lines : List String) (acc : String) :
    (newDataLoop (n + 1) lines acc).data =
      acc.data ++ (lines.map (fun l => l.data ++ [newlineChar])).flatten := by
  induction lines generalizing n acc with
  | nil => simp [newDataLoop]
  | cons l ls ih =>
    simp only [newDataLoop, Nat.add_one_ne_zero, if_false]
    rw [ih]
    simp [String.data_append, String.singleton]

theorem newData_data_cons (data : String) (hd : List Char) (rest : List (List Char))
    (h : strings.splitChars newlineChar data.data = hd :: rest) :
    (newData data).data =
      hd.filter (fun c => decide (c ≠ quoteChar)) ++ [newlineChar] ++
        (rest.map (fun l => l ++ [newlineChar])).flatten := by
  unfold newData strings.Split
  rw [h]
  simp only [List.map_cons, newDataLoop, if_true]
  rw [newDataLoop_succ_data]
  simp [String.data_append, String.singleton, strings.ReplaceAll, Function.comp_def]

/-- The text handed to the decoder for a file of at least two lines: the first
line without its double quotes, then the rest of the file as it is, then one
more line feed. -/
theorem newData_header_rest (header rest : String) (hnl : newlineChar ∉ header.data) :
    newData (header ++ String.singleton newlineChar ++ rest) =
      strings.ReplaceAll header quoteChar ++ String.singleton newlineChar ++ rest ++
        String.singleton newlineChar := by
  apply String.ext
  have hsplit : strings.splitChars newlineChar
      (header ++ String.singleton newlineChar ++ rest).data =
        header.data :: strings.splitChars newlineChar rest.data := by
    simp only [String.data_append, String.singleton, String.push, List.append_assoc]
    exact splitChars_append_sep newlineChar header.data rest.data hnl
  rw [newData_data_cons _ _ _ hsplit, splitChars_join]
  simp [String.data_append, String.singleton, strings.ReplaceAll]

/-- The text handed to the decoder for a file of one line. -/
theorem newData_header_only (header : String) (hnl : newlineChar ∉ header.data) :
    newData header = strings.ReplaceAll header quoteChar ++ String.singleton newlineChar := by
  apply String.ext
  rw [newData_data_cons _ _ _ (splitChars_of_not_mem newlineChar header.data hnl)]
  simp [String.data_append, String.singleton, strings.ReplaceAll]

/-- Every file content is a first line alone, or a first line, a line feed
and the rest of the file. -/
theorem file_shape (data : String) :
    newlineChar ∉ data.data ∨
      ∃ header rest : String, newlineChar ∉ header.data ∧
        data = header ++ String.singleton newlineChar ++ rest := by
  by_cases h : newlineChar ∈ data.data
  · right
    obtain ⟨a, b, hab, hna⟩ := List.eq_append_cons_of_mem h
    refine ⟨⟨a⟩, ⟨b⟩, hna, ?_⟩
    apply String.ext
    simp [String.data_append, String.singleton, hab]
  · exact Or.inl h

/-- Removing the double quotes of a quoted row gives the plain row. -/
theorem QuotedAs_filter (quoted plain : List Char) (h : QuotedAs quoted plain) :
    quoted.filter (fun c => decide (c ≠ quoteChar)) = plain := by
  induction h with
  | done => rfl
  | quote _ ih => simpa using ih
  | keep c hc _ ih =>
    rw [List.filter_cons_of_pos (by simpa using hc), ih]

/-- Every row is a quoted form of what is left of it without its double quotes. -/
theorem QuotedAs_of_filter (quoted plain : List Char)
    (h : quoted.filter (fun c => decide (c ≠ quoteChar)) = plain) : QuotedAs quoted plain := by
  induction quoted generalizing plain with
  | nil =>
    simp only [List.filter_nil] at h
    rw [← h]
    exact QuotedAs.done
  | cons c cs ih =>
    by_cases hc : c = quoteChar
    · rw [hc] at h ⊢
      simp only [ne_eq, not_true_eq_false, decide_False, Bool.false_eq_true,
        not_false_eq_true, List.filter_cons_of_neg] at h
      exact QuotedAs.quote (ih plain h)
    · have hf : (c :: cs).filter (fun c => decide (c ≠ quoteChar)) =
          c :: cs.filter (fun c => decide (c ≠ quoteChar)) := by
        simp [hc]
      rw [hf] at h
      rw [← h]
      exact QuotedAs.keep c hc (ih _ rfl)

/-- C8: header sanitization is idempotent. For a first line `header` and the row
`unquoted` that it is a quoted form of (the same characters without the double
quotes): removing the double quotes of `header` gives `unquoted`, which has no
double quote; removing them twice gives what removing them once gives; the
line `unquoted`, and every first line without double quote, is left unchanged;
the file with first line `header` and the otherwise identical file with first
line `unquoted` hand the same text to the decoder, namely `unquoted`, a line
feed, the rest of the file unmodified and one more line feed; so
`parseYouTrackIssues` gives the same result on both files. -/
theorem header_sanitization_idempotent (w : World) (header unquoted rest : String)
    (hnl : newlineChar ∉ header.data) (hq : QuotedAs header.data unquoted.data) :
    strings.ReplaceAll header quoteChar = unquoted ∧
      quoteChar ∉ (strings.ReplaceAll header quoteChar).data ∧
      strings.ReplaceAll (strings.ReplaceAll header quoteChar) quoteChar =
        strings.ReplaceAll header quoteChar ∧
      strings.ReplaceAll unquoted quoteChar = unquoted ∧
      (quoteChar ∉ header.data → strings.ReplaceAll header quoteChar = header) ∧
      newData (header ++ String.singleton newlineChar ++ rest) =
        unquoted ++ String.singleton newlineChar ++ rest ++ String.singleton newlineChar ∧
      newData (unquoted ++ String.singleton newlineChar ++ rest) =
        newData (header ++ String.singleton newlineChar ++ rest) ∧
      newData header = unquoted ++ String.singleton newlineChar ∧
      newData unquoted = newData header ∧
      (∀ quotedPath unquotedPath : String,
        w.ReadFile quotedPath = .ok (header ++ String.singleton newlineChar ++ rest) →
        w.ReadFile unquotedPath = .ok (unquoted ++ String.singleton newlineChar ++ rest) →
        parseYouTrackIssues w unquotedPath = parseYouTrackIssues w quotedPath) := by
  have hrep : strings.ReplaceAll header quoteChar = unquoted := by
    apply String.ext
    exact QuotedAs_filter _ _ hq
  have hnoq : quoteChar ∉ (strings.ReplaceAll header quoteChar).data := by
    unfold strings.ReplaceAll
    simp
  have hnoq2 : quoteChar ∉ unquoted.data := by rw [← hrep]; exact hnoq
  have hnl2 : newlineChar ∉ unquoted.data := by
    rw [← hrep]
    exact ReplaceAll_not_mem header quoteChar newlineChar hnl
  have hsame : strings.ReplaceAll unquoted quoteChar = unquoted :=
    ReplaceAll_of_not_mem _ _ hnoq2
  have h1 : newData (header ++ String.singleton newlineChar ++ rest) =
      unquoted ++ String.singleton newlineChar ++ rest ++ String.singleton newlineChar := by
    rw [newData_header_rest _ _ hnl, hrep]
  have h2 : newData (unquoted ++ String.singleton newlineChar ++ rest) =
      newData (header ++ String.singleton newlineChar ++ rest) := by
    rw [h1, newData_header_rest _ _ hnl2, hsame]
  have h3 : newData header = unquoted ++ String.singleton newlineChar := by
    rw [newData_header_only _ hnl, hrep]
  refine ⟨hrep, hnoq, ReplaceAll_idem _ _, hsame, ReplaceAll_of_not_mem _ _, h1, h2, h3, ?_, ?_⟩
  · rw [h3, newData_header_only _ hnl2, hsame]
  · intro quotedPath unquotedPath hqp hup
    unfold parseYouTrackIssues
    rw [hqp, hup]
    simp only
    rw [h2]

/-- An instance of `header_sanitization_idempotent`: a first line with two quoted
fields and one data line. -/
theorem header_sanitization_idempotent_witness :
    strings.ReplaceAll quotedHeader quoteChar = "Issue Id,Summary" ∧
      newData (quotedHeader ++ String.singleton newlineChar ++ "Y-1,s") =
        "Issue Id,Summary" ++ String.singleton newlineChar ++ "Y-1,s" ++
          String.singleton newlineChar ∧
      newData ("Issue Id,Summary" ++ String.singleton newlineChar ++ "Y-1,s") =
        newData (quotedHeader ++ String.singleton newlineChar ++ "Y-1,s") :=
  have h := header_sanitization_idempotent twoRecords quotedHeader "Issue Id,Summary" "Y-1,s"
    (by decide) (QuotedAs_of_filter _ _ rfl)
  ⟨h.1, h.2.2.2.2.2.1, h.2.2.2.2.2.2.1⟩

/-! ## The transition system of addIssue -/

theorem step_ret (w : World) (c : Cfg) (r : Option GoError) (h : c.pc = .ret r) :
    step w c = c := by
  unfold step
  rw [h]

theorem run_ret (w : World) (n : Nat) (c : Cfg) (r : Option GoError) (h : c.pc = .ret r) :
    run w n c = c := by
  induction n with
  | zero => rfl
  | succ n ih => rw [run, step_ret w c r h, ih]

theorem run_add (w : World) (m n : Nat) (c : Cfg) : run w (m + n) c = run w n (run w m c) := by
  induction m generalizing c with
  | zero => simp [run]
  | succ m ih => rw [Nat.succ_add, run, run, ih]

theorem run_succ_last (w : World) (n : Nat) (c : Cfg) :
    run w (n + 1) c = step w (run w n c) := by
  rw [run_add w n 1 c]
  rfl

/-- The errors of `strconv.Atoi` and `strconv.ParseInt` are `*strconv.NumError`s. -/
theorem parseSigned_error (fn s : String) (e : GoError)
    (h : strconv.parseSigned fn s = .error e) : e = .numError fn s := by
  unfold strconv.parseSigned at h
  split at h
  · injection h with h
    exact h.symm
  · simp only at h
    split at h
    · injection h with h
      exact h.symm
    · split at h
      · injection h with h
        exact h.symm
      · split at h
        · injection h with h
          exact h.symm
        · exact absurd h (by simp)

/-- The step at `doRequest` on an answer that is not throttled. -/
theorem step_doRequest_final (w : World) (c : Cfg) (resp : Response)
    (rateLimit rateLimitReset : Int)
    (hpc : c.pc = .doRequest) (hdo : w.Do c.st.sends = .ok resp)
    (h1 : strconv.Atoi (resp.Header.Get "X-Ratelimit-Remaining") = .ok rateLimit)
    (h2 : strconv.ParseInt (resp.Header.Get "X-Ratelimit-Reset") = .ok rateLimitReset)
    (h5 : 5 ≤ rateLimit) (h403 : resp.StatusCode ≠ 403) :
    step w c =
      ⟨.ret (if resp.StatusCode = 201 then none else some (statusError resp.StatusCode)),
        { c.req with Body := "" },
        { c.st with sends := c.st.sends + 1 }.emit (.send c.req (.ok resp))⟩ := by
  have h5 : ¬ rateLimit < 5 := by omega
  unfold step
  rw [hpc]
  simp only [hdo, h1, h2, h5, h403, or_self, if_false]
  by_cases h201 : resp.StatusCode = 201 <;> simp [h201]

/-- The step at `doRequest` on a throttled answer. -/
theorem step_doRequest_throttled (w : World) (c : Cfg) (resp : Response)
    (rateLimit rateLimitReset : Int)
    (hpc : c.pc = .doRequest) (hdo : w.Do c.st.sends = .ok resp)
    (h1 : strconv.Atoi (resp.Header.Get "X-Ratelimit-Remaining") = .ok rateLimit)
    (h2 : strconv.ParseInt (resp.Header.Get "X-Ratelimit-Reset") = .ok rateLimitReset)
    (hthr : rateLimit < 5 ∨ resp.StatusCode = 403) :
    step w c =
      ⟨.waitLoop (time.Unix rateLimitReset), { c.req with Body := "" },
        { c.st with sends := c.st.sends + 1 }.emit (.send c.req (.ok resp))⟩ := by
  unfold step
  rw [hpc]
  simp only [hdo, h1, h2, hthr, if_true]

/-- The step at `doRequest` on an answer whose rate-limit headers do not parse. -/
theorem step_doRequest_unparsable (w : World) (c : Cfg) (resp : Response)
    (hpc : c.pc = .doRequest) (hdo : w.Do c.st.sends = .ok resp)
    (hbad : (∀ v, strconv.Atoi (resp.Header.Get "X-Ratelimit-Remaining") ≠ .ok v) ∨
      (∀ v, strconv.ParseInt (resp.Header.Get "X-Ratelimit-Reset") ≠ .ok v)) :
    ∃ fn input, step w c =
      ⟨.ret (some (.numError fn input)), { c.req with Body := "" },
        { c.st with sends := c.st.sends + 1 }.emit (.send c.req (.ok resp))⟩ := by
  unfold step
  rw [hpc]
  simp only [hdo]
  cases hA : strconv.Atoi (resp.Header.Get "X-Ratelimit-Remaining") with
  | error e =>
    have := parseSigned_error _ _ e hA
    exact ⟨_, _, by rw [this]⟩
  | ok rateLimit =>
    cases hP : strconv.ParseInt (resp.Header.Get "X-Ratelimit-Reset") with
    | error e =>
      have := parseSigned_error _ _ e hP
      exact ⟨_, _, by rw [this]⟩
    | ok rateLimitReset =>
      rcases hbad with hb | hb
      · exact absurd hA (hb _)
      · exact absurd hP (hb _)

/-- A header that is absent is read as the empty string, which is no integer. -/
theorem absent_header_unparsable (h : Header) (key fn : String)
    (habs : ∀ v, (CanonicalMIMEHeaderKey key, v) ∉ h) :
    ∀ v, strconv.parseSigned fn (h.Get key) ≠ .ok v := by
  have hget : h.Get key = "" := by
    unfold Header.Get
    cases hf : h.find? (fun kv => kv.1 == CanonicalMIMEHeaderKey key) with
    | none => rfl
    | some kv =>
      have hmem := List.mem_of_find?_eq_some hf
      have hk := List.find?_some hf
      simp only [beq_iff_eq] at hk
      exact absurd (by rw [← hk]; exact hmem) (habs kv.2)
  intro v hv
  rw [hget] at hv
  simp [strconv.parseSigned] at hv

/-! ## Answers that end the call -/

/-- C1: whenever `addIssue` stands at `doRequest` (at its first send or after
a wait) and the answer to the send has rate-limit headers that parse as
integers, with remaining at least 5 and a status other than 403, the call
returns after this one send, sends nothing further however long it is run, and
returns `nil` exactly when the status is 201; for every other status N it
returns the error "unable to create issue: status code: N". -/
theorem addIssue_final_answer (w : World) (c : Cfg) (resp : Response)
    (rateLimit rateLimitReset : Int) (n : Nat)
    (hpc : c.pc = .doRequest) (hdo : w.Do c.st.sends = .ok resp)
    (h1 : strconv.Atoi (resp.Header.Get "X-Ratelimit-Remaining") = .ok rateLimit)
    (h2 : strconv.ParseInt (resp.Header.Get "X-Ratelimit-Reset") = .ok rateLimitReset)
    (h5 : 5 ≤ rateLimit) (h403 : resp.StatusCode ≠ 403) :
    (run w (n + 1) c).pc =
        .ret (if resp.StatusCode = 201 then none
          else some (.errorsNew
            ("unable to create issue: status code: " ++ toString resp.StatusCode))) ∧
      ((run w (n + 1) c).pc = .ret none ↔ resp.StatusCode = 201) ∧
      (run w (n + 1) c).st.sends = c.st.sends + 1 ∧
      (run w (n + 1) c).st.trace = c.st.trace ++ [.send c.req (.ok resp)] ∧
      (∀ owner repoName token ytIssue label milestone req st0 k,
        buildRequest w owner repoName token ytIssue label milestone = .ok req →
        run w k ⟨.doRequest, req, st0⟩ = c →
        (addIssue w owner repoName token ytIssue label milestone (k + (n + 1)) st0).result =
          some (if resp.StatusCode = 201 then none else some (statusError resp.StatusCode))) := by
  have hstep := step_doRequest_final w c resp rateLimit rateLimitReset hpc hdo h1 h2 h5 h403
  have hrun : run w (n + 1) c = step w c := by
    rw [run]
    exact run_ret w n _ _ (by rw [hstep])
  rw [hrun, hstep]
  refine ⟨rfl, ?_, rfl, rfl, ?_⟩
  · by_cases h201 : resp.StatusCode = 201 <;> simp [h201]
  · intro owner repoName token ytIssue label milestone req st0 k hb hk
    unfold addIssue
    rw [hb]
    simp only
    rw [run_add, hk, hrun, hstep]
    rfl

/-- An instance of `addIssue_final_answer`: status 404 with remaining 10. -/
theorem addIssue_final_answer_witness :
    (run (worldOf (fun _ => .ok ⟨404, rateHeaders "10" "100"⟩) (clockAt 0)) 1
        ⟨.doRequest, sampleRequest, St.start⟩).pc =
      .ret (some (.errorsNew "unable to create issue: status code: 404")) :=
  (addIssue_final_answer (worldOf (fun _ => .ok ⟨404, rateHeaders "10" "100"⟩) (clockAt 0))
    ⟨.doRequest, sampleRequest, St.start⟩ ⟨404, rateHeaders "10" "100"⟩ 10 100 0
    rfl rfl rfl rfl (by decide) (by decide)).1

/-- C3: whenever `addIssue` stands at `doRequest` and the answer to the send
has an `X-Ratelimit-Remaining` header that is no integer or an
`X-Ratelimit-Reset` header that is no 64-bit integer (an absent header is read
as the empty string, which is none), the call returns the parse error after
this send, whatever the status: the clock is not read, nothing is slept and
nothing further is sent. -/
theorem addIssue_unparsable_headers (w : World) (c : Cfg) (resp : Response) (n : Nat)
    (hpc : c.pc = .doRequest) (hdo : w.Do c.st.sends = .ok resp)
    (hbad : (∀ v, strconv.Atoi (resp.Header.Get "X-Ratelimit-Remaining") ≠ .ok v) ∨
      (∀ v, strconv.ParseInt (resp.Header.Get "X-Ratelimit-Reset") ≠ .ok v)) :
    (∃ fn input, (run w (n + 1) c).pc = .ret (some (.numError fn input))) ∧
      (run w (n + 1) c).st.sends = c.st.sends + 1 ∧
      (run w (n + 1) c).st.reads = c.st.reads ∧
      (run w (n + 1) c).st.trace = c.st.trace ++ [.send c.req (.ok resp)] := by
  obtain ⟨fn, input, hstep⟩ := step_doRequest_unparsable w c resp hpc hdo hbad
  have hrun : run w (n + 1) c = step w c := by
    rw [run]
    exact run_ret w n _ _ (by rw [hstep])
  rw [hrun, hstep]
  exact ⟨⟨fn, input, rfl⟩, rfl, rfl, rfl⟩

/-- An instance of `addIssue_unparsable_headers`: status 201 without any
rate-limit header. -/
theorem addIssue_unparsable_headers_witness :
    (∃ fn input, (run (worldOf (fun _ => .ok ⟨201, []⟩) (clockAt 0)) 1
        ⟨.doRequest, sampleRequest, St.start⟩).pc = .ret (some (.numError fn input))) ∧
      (run (worldOf (fun _ => .ok ⟨201, []⟩) (clockAt 0)) 1
        ⟨.doRequest, sampleRequest, St.start⟩).st.sends = 1 :=
  have h := addIssue_unparsable_headers (worldOf (fun _ => .ok ⟨201, []⟩) (clockAt 0))
    ⟨.doRequest, sampleRequest, St.start⟩ ⟨201, []⟩ 0 rfl rfl
    (Or.inl (absent_header_unparsable [] "X-Ratelimit-Remaining" "Atoi" (by simp)))
  ⟨h.1, h.2.1⟩

/-! ## No re-send before the reset-instant -/

theorem Watch.after_append (l : List Event) (e : Event) :
    Watch.after (l ++ [e]) = (Watch.after l).next e := by
  simp [Watch.after, List.foldl_append]

theorem WatchInv_step (w : World) (base : List Event) (c : Cfg) (h : WatchInv base c) :
    WatchInv base (step w c) := by
  obtain ⟨new, htr, hok, hpc⟩ := h
  cases hp : c.pc with
  | ret r => rw [step_ret w c r hp]; exact ⟨new, htr, hok, hpc⟩
  | doRequest =>
    rw [hp] at hpc
    simp only at hpc
    have hok2 : ((Watch.after new).next (.send c.req (w.Do c.st.sends))).ok = true := by
      simp only [Watch.next, Bool.and_eq_true, Bool.or_eq_true, Bool.not_eq_true']
      refine ⟨hok, ?_⟩
      rcases hpc with h | ⟨t, cl, h1, h2, h3⟩
      · exact Or.inl h
      · right
        rw [h1, h2]
        simp [h3]
    unfold step
    rw [hp]
    simp only
    cases hdo : w.Do c.st.sends with
    | error e =>
      refine ⟨new ++ [.send c.req (.error e)], by simp [St.emit, htr], ?_, trivial⟩
      rw [Watch.after_append, ← hdo]
      exact hok2
    | ok resp =>
      rw [hdo] at hok2
      simp only
      cases hA : strconv.Atoi (resp.Header.Get "X-Ratelimit-Remaining") with
      | error e =>
        refine ⟨new ++ [.send c.req (.ok resp)], by simp [St.emit, htr], ?_, trivial⟩
        rw [Watch.after_append]
        exact hok2
      | ok rateLimit =>
        simp only
        cases hP : strconv.ParseInt (resp.Header.Get "X-Ratelimit-Reset") with
        | error e =>
          refine ⟨new ++ [.send c.req (.ok resp)], by simp [St.emit, htr], ?_, trivial⟩
          rw [Watch.after_append]
          exact hok2
        | ok rateLimitReset =>
          simp only
          split
          · refine ⟨new ++ [.send c.req (.ok resp)], by simp [St.emit, htr], ?_, ?_⟩
            · rw [Watch.after_append]
              exact hok2
            · rw [Watch.after_append]
              simp [Watch.next, resetInstant, hP]
          · split
            · refine ⟨new ++ [.send c.req (.ok resp)], by simp [St.emit, htr], ?_, trivial⟩
              rw [Watch.after_append]
              exact hok2
            · refine ⟨new ++ [.send c.req (.ok resp)], by simp [St.emit, htr], ?_, trivial⟩
              rw [Watch.after_append]
              exact hok2
  | waitLoop t =>
    rw [hp] at hpc
    simp only at hpc
    unfold step
    rw [hp]
    simp only
    split
    · cases hE : getETA t (w.Now ({ c.st with reads := c.st.reads + 1 }.emit
          (.now (w.Now c.st.reads))).reads) with
      | error e =>
        simp only
        refine ⟨new ++ [.now (w.Now c.st.reads)] ++
          [.now (w.Now ({ c.st with reads := c.st.reads + 1 }.emit
            (.now (w.Now c.st.reads))).reads)], by simp [St.emit, htr], ?_, trivial⟩
        rw [Watch.after_append, Watch.after_append]
        simpa [Watch.next] using hok
      | ok eta =>
        simp only
        refine ⟨new ++ [.now (w.Now c.st.reads)] ++
          [.now (w.Now ({ c.st with reads := c.st.reads + 1 }.emit
            (.now (w.Now c.st.reads))).reads)] ++ [.logWaiting eta] ++ [.sleep eta],
          by simp [St.emit, htr], ?_, ?_⟩
        · rw [Watch.after_append, Watch.after_append, Watch.after_append, Watch.after_append]
          simpa [Watch.next] using hok
        · rw [Watch.after_append, Watch.after_append, Watch.after_append, Watch.after_append]
          simpa [Watch.next] using hpc
    · rename_i hb
      refine ⟨new ++ [.now (w.Now c.st.reads)], by simp [St.emit, htr], ?_, ?_⟩
      · rw [Watch.after_append]
        simpa [Watch.next] using hok
      · rw [Watch.after_append]
        right
        exact ⟨t, w.Now c.st.reads, by simp [Watch.next, hpc.2], by simp [Watch.next],
          by simpa using hb⟩

theorem WatchInv_run (w : World) (base : List Event) (n : Nat) (c : Cfg)
    (h : WatchInv base c) : WatchInv base (run w n c) := by
  induction n generalizing c with
  | zero => exact h
  | succ n ih => exact ih _ (WatchInv_step w base c h)

theorem WatchInv_start (req : Request) (st : St) : WatchInv st.trace ⟨.doRequest, req, st⟩ :=
  ⟨[], by simp, rfl, Or.inl rfl⟩

theorem Watch.next_ok (s : Watch) (e : Event) (h : (s.next e).ok = true) : s.ok = true := by
  cases e <;> simp [Watch.next] at h <;> first | exact h | exact h.1

theorem Watch.foldl_ok (l : List Event) (s : Watch)
    (h : (l.foldl Watch.next s).ok = true) : s.ok = true := by
  induction l generalizing s with
  | nil => exact h
  | cons e l ih => exact Watch.next_ok s e (ih _ h)

/-- Events other than sends leave the answer in mind, and the reader has a
clock reading in mind only when the last of them was that reading. -/
theorem Watch.foldl_no_send (mid : List Event) (s : Watch) (hs : s.lastNow = none)
    (hmid : ∀ r a, Event.send r a ∉ mid) :
    (mid.foldl Watch.next s).answered = s.answered ∧
      (mid.foldl Watch.next s).reset = s.reset ∧
      ∀ c, (mid.foldl Watch.next s).lastNow = some c → ∃ mid', mid = mid' ++ [.now c] := by
  induction mid using List.reverseRecOn with
  | nil =>
    refine ⟨rfl, rfl, ?_⟩
    intro c hc
    simp only [List.foldl_nil] at hc
    rw [hs] at hc
    exact absurd hc (by simp)
  | append_singleton m e ih =>
    have hm : ∀ r a, Event.send r a ∉ m := fun r a hmem => hmid r a (by simp [hmem])
    obtain ⟨h1, h2, _⟩ := ih hm
    rw [List.foldl_append]
    simp only [List.foldl_cons, List.foldl_nil]
    cases e with
    | send r a => exact absurd (by simp) (hmid r a)
    | now c0 =>
      refine ⟨by simp [Watch.next, h1], by simp [Watch.next, h2], ?_⟩
      intro c hc
      simp only [Watch.next, Option.some.injEq] at hc
      exact ⟨m, by rw [hc]⟩
    | sleep d => exact ⟨by simp [Watch.next, h1], by simp [Watch.next, h2], by simp [Watch.next]⟩
    | logWaiting d =>
      exact ⟨by simp [Watch.next, h1], by simp [Watch.next, h2], by simp [Watch.next]⟩
    | println m0 =>
      exact ⟨by simp [Watch.next, h1], by simp [Watch.next, h2], by simp [Watch.next]⟩
    | call a b c0 d e0 f =>
      exact ⟨by simp [Watch.next, h1], by simp [Watch.next, h2], by simp [Watch.next]⟩
    | logCreated i =>
      exact ⟨by simp [Watch.next, h1], by simp [Watch.next, h2], by simp [Watch.next]⟩
    | logUnable i e0 =>
      exact ⟨by simp [Watch.next, h1], by simp [Watch.next, h2], by simp [Watch.next]⟩

/-- What a content reader has seen between two consecutive sends. -/
theorem Watch.between_sends (pre mid post : List Event) (req1 req2 : Request)
    (a1 a2 : Except String Response)
    (hok : (Watch.after (pre ++ [.send req1 a1] ++ mid ++ [.send req2 a2] ++ post)).ok = true)
    (hmid : ∀ r a, Event.send r a ∉ mid) :
    ∃ t c mid', resetInstant a1 = some t ∧ mid = mid' ++ [.now c] ∧ c.Before t = false := by
  unfold Watch.after at hok
  rw [List.foldl_append] at hok
  have h1 := Watch.foldl_ok _ _ hok
  rw [List.foldl_append, List.foldl_append, List.foldl_append] at h1
  simp only [List.foldl_cons, List.foldl_nil] at h1
  obtain ⟨hans, hres, hlast⟩ := Watch.foldl_no_send mid
    ((List.foldl Watch.next Watch.start pre).next (.send req1 a1)) rfl hmid
  generalize hS : List.foldl Watch.next
    ((List.foldl Watch.next Watch.start pre).next (.send req1 a1)) mid = S at h1 hans hres hlast
  have hans2 : S.answered = true := by rw [hans]; rfl
  have hres2 : S.reset = resetInstant a1 := by rw [hres]; rfl
  simp only [Watch.next, hans2, Bool.not_true, Bool.false_or, Bool.and_eq_true] at h1
  obtain ⟨_, h2⟩ := h1
  cases hr : S.reset with
  | none => rw [hr] at h2; simp at h2
  | some t =>
    cases hl : S.lastNow with
    | none => rw [hr, hl] at h2; simp at h2
    | some c =>
      rw [hr, hl] at h2
      obtain ⟨mid', hm⟩ := hlast c hl
      exact ⟨t, c, mid', by rw [← hres2, hr], hm, by simpa using h2⟩

/-- A value that `strconv.ParseInt` or `strconv.Atoi` returns is an `int64`. -/
theorem parseSigned_range (fn s : String) (v : Int) (h : strconv.parseSigned fn s = .ok v) :
    -2 ^ 63 ≤ v ∧ v < 2 ^ 63 := by
  unfold strconv.parseSigned at h
  split at h
  · exact absurd h (by simp)
  · simp only at h
    split at h
    · exact absurd h (by simp)
    · rename_i un _
      split at h
      · exact absurd h (by simp)
      · rename_i h1
        split at h
        · exact absurd h (by simp)
        · rename_i h2
          injection h with h
          rw [← h]
          split
          · rename_i hneg
            have : ¬ (2 ^ 63 < un) := fun hlt => h2 ⟨hneg, hlt⟩
            omega
          · rename_i hneg
            have hf : (_ : Bool) = false := Bool.eq_false_iff.mpr hneg
            have : ¬ (2 ^ 63 ≤ un) := fun hle => h1 ⟨hf, hle⟩
            omega

/-- The reset-instant of an answer is `time.Unix` of its `X-Ratelimit-Reset`
header. -/
theorem resetInstant_some (a : Except String Response) (t : Time) (h : resetInstant a = some t) :
    ∃ resp x, a = .ok resp ∧
      strconv.ParseInt (resp.Header.Get "X-Ratelimit-Reset") = .ok x ∧ t = time.Unix x := by
  cases a with
  | error msg => simp [resetInstant] at h
  | ok resp =>
    cases hP : strconv.ParseInt (resp.Header.Get "X-Ratelimit-Reset") with
    | error e => simp [resetInstant, hP] at h
    | ok x =>
      simp only [resetInstant, hP, Option.some.injEq] at h
      exact ⟨resp, x, rfl, hP, h.symm⟩

/-- C2, as stated, fails: in `farResetWorld` the answer has headers that parse,
remaining 0 and status 403, and announces the reset-instant Unix second
9223372036854775807; the clock stands at Unix second 1700000000, far before
it, yet `addIssue` sends again right after its first reading of the clock:
`time.Unix` adds 62135596800 in `int64`, the sum wraps around to an instant in
the far past, and the loop guard of line 108 is false. -/
theorem addIssue_resends_before_far_reset :
    strconv.Atoi ((rateHeaders "0" "9223372036854775807").Get "X-Ratelimit-Remaining") =
        .ok 0 ∧
      strconv.ParseInt ((rateHeaders "0" "9223372036854775807").Get "X-Ratelimit-Reset") =
        .ok 9223372036854775807 ∧
      (addIssue farResetWorld "o" "r" "t" (recordOf "Y-1" "s" "d") "l" 1 3 St.start).st.trace =
        [.send (builtRequest "s|d") (.ok ⟨403, rateHeaders "0" "9223372036854775807"⟩),
          .now ⟨unixToInternal + 1700000000, 0⟩,
          .send (builtRequest "") (.ok ⟨403, rateHeaders "0" "9223372036854775807"⟩)] ∧
      (unixToInternal + 1700000000 : Int) - unixToInternal < 9223372036854775807 :=
  ⟨rfl, rfl, rfl, by decide⟩

/-- C2, amended: in every run of `addIssue`, from any state and for any number
of steps, a re-send follows an answer whose `X-Ratelimit-Reset` header parses,
and when the value `x` of that header is such that `time.Unix(x, 0)` does not
overflow `int64` (`x + 62135596800 < 2^63`), the re-send comes right after a
reading of the clock that is at or after the reset-instant: between two
consecutive sends, the first answered by `a1`, the last event is a clock
reading `c` with `c.Before(rateLimitResetTime)` false and with the Unix second
of `c` (its seconds since year 1 less 62135596800) at least `x`. -/
theorem addIssue_resend_after_reset (w : World) (owner repoName token : String)
    (ytIssue : YouTrackIssue) (label : String) (milestone : Int) (fuel : Nat) (st : St)
    (pre mid post : List Event) (req1 req2 : Request) (a1 a2 : Except String Response)
    (htrace : (addIssue w owner repoName token ytIssue label milestone fuel st).st.trace =
      st.trace ++ (pre ++ [.send req1 a1] ++ mid ++ [.send req2 a2] ++ post))
    (hmid : ∀ r a, Event.send r a ∉ mid)
    (hrange : ∀ resp x, a1 = .ok resp →
      strconv.ParseInt (resp.Header.Get "X-Ratelimit-Reset") = .ok x →
      x + unixToInternal < 2 ^ 63) :
    ∃ resp x c mid', a1 = .ok resp ∧
      strconv.ParseInt (resp.Header.Get "X-Ratelimit-Reset") = .ok x ∧
      mid = mid' ++ [.now c] ∧ c.Before (time.Unix x) = false ∧
      x ≤ c.sec - unixToInternal := by
  have key : ∃ t c mid', resetInstant a1 = some t ∧ mid = mid' ++ [.now c] ∧
      c.Before t = false := by
    unfold addIssue at htrace
    cases hb : buildRequest w owner repoName token ytIssue label milestone with
    | error e =>
      rw [hb] at htrace
      simp only at htrace
      have := congrArg List.length htrace
      simp at this
    | ok req =>
      rw [hb] at htrace
      simp only at htrace
      obtain ⟨new, hnew, hok, _⟩ := WatchInv_run w st.trace fuel _ (WatchInv_start req st)
      rw [htrace] at hnew
      have hnew2 := List.append_cancel_left hnew
      rw [← hnew2] at hok
      exact Watch.between_sends pre mid post req1 req2 a1 a2 hok hmid
  obtain ⟨t, c, mid', ht, hm, hbef⟩ := key
  obtain ⟨resp, x, ha, hP, rfl⟩ := resetInstant_some a1 t ht
  refine ⟨resp, x, c, mid', ha, hP, hm, hbef, ?_⟩
  have hx := hrange resp x ha hP
  have hlow := (parseSigned_range _ _ x hP).1
  have hK := unixToInternal_eq
  have hsec : (time.Unix x).sec = x + unixToInternal :=
    Unix_sec x (by rw [hK]; omega) hx
  have hnb : ¬ (c.sec < (time.Unix x).sec) := by
    rw [← Before_Unix_iff, hbef]
    simp
  rw [hsec] at hnb
  omega

/-- An instance of `addIssue_resend_after_reset`: the run of `throttledOnce`, which
waits five seconds between its two sends. -/
theorem addIssue_resend_after_reset_witness :
    ∃ resp x c mid', (.ok ⟨403, rateHeaders "3" "105"⟩ : Except String Response) = .ok resp ∧
      strconv.ParseInt (resp.Header.Get "X-Ratelimit-Reset") = .ok x ∧
      [Event.now ⟨unixToInternal + 100, 0⟩, .now ⟨unixToInternal + 100, 0⟩,
        .logWaiting 5000000000, .sleep 5000000000, .now ⟨unixToInternal + 105, 0⟩] =
        mid' ++ [.now c] ∧
      c.Before (time.Unix x) = false ∧ x ≤ c.sec - unixToInternal :=
  addIssue_resend_after_reset throttledOnce "o" "r" "t" (recordOf "Y-1" "s" "d") "l" 1 4
    St.start [] _ [] (builtRequest "s|d") (builtRequest "")
    (.ok ⟨403, rateHeaders "3" "105"⟩) (.ok ⟨201, rateHeaders "4999" "3600"⟩) rfl (by simp)
    (by
      intro resp x h1 h2
      cases h1
      have h105 : strconv.ParseInt
          ((rateHeaders "3" "105").Get "X-Ratelimit-Reset") = .ok 105 := rfl
      rw [h105] at h2
      cases h2
      rw [unixToInternal_eq]
      norm_num)

/-! ## The wait loop -/

/-- The step at the head of the wait loop when the clock is not before the
reset-instant: back to `doRequest`. -/
theorem step_waitLoop_reached (w : World) (c : Cfg) (t : Time)
    (hpc : c.pc = .waitLoop t) (hb : (w.Now c.st.reads).Before t = false) :
    step w c =
      ⟨.doRequest, c.req, { c.st with reads := c.st.reads + 1 }.emit (.now (w.Now c.st.reads))⟩ := by
  unfold step
  rw [hpc]
  simp [hb]

/-- The step at the head of the wait loop when the clock is before the
reset-instant and `getETA` yields a duration: log, sleep, and again. -/
theorem step_waitLoop_sleep (w : World) (c : Cfg) (t : Time) (eta : Int)
    (hpc : c.pc = .waitLoop t) (hb : (w.Now c.st.reads).Before t = true)
    (he : getETA t (w.Now (c.st.reads + 1)) = .ok eta) :
    step w c =
      ⟨.waitLoop t, c.req,
        ⟨c.st.sends, c.st.reads + 2,
          c.st.trace ++ [.now (w.Now c.st.reads)] ++ [.now (w.Now (c.st.reads + 1))] ++
            [.logWaiting eta] ++ [.sleep eta]⟩⟩ := by
  unfold step
  rw [hpc]
  simp [hb, St.emit, he]

/-- The step at the head of the wait loop when the clock is before the
reset-instant and `getETA` fails: its error is returned. -/
theorem step_waitLoop_error (w : World) (c : Cfg) (t : Time) (e : GoError)
    (hpc : c.pc = .waitLoop t) (hb : (w.Now c.st.reads).Before t = true)
    (he : getETA t (w.Now (c.st.reads + 1)) = .error e) :
    (step w c).pc = .ret (some e) ∧ (step w c).st.sends = c.st.sends ∧
      (step w c).req = c.req := by
  unfold step
  rw [hpc]
  simp [hb, St.emit, he]

theorem Waiting_step (w : World) (c : Cfg) (h1 : AlwaysThrottled w) (h3 : ETAsSucceed w)
    (h : Waiting w c) : Waiting w (step w c) := by
  rcases h with hpc | ⟨t, k, hpc, ht⟩
  · obtain ⟨resp, rl, rr, hdo, hA, hP, hthr⟩ := h1 c.st.sends
    rw [step_doRequest_throttled w c resp rl rr hpc hdo hA hP hthr]
    exact Or.inr ⟨_, c.st.sends, rfl, by simp [resetInstant, hdo, hP]⟩
  · cases hb : (w.Now c.st.reads).Before t with
    | false =>
      rw [step_waitLoop_reached w c t hpc hb]
      exact Or.inl rfl
    | true =>
      obtain ⟨eta, he⟩ := h3 k t ht _ hb
      rw [step_waitLoop_sleep w c t eta hpc hb he]
      exact Or.inr ⟨t, k, rfl, ht⟩

theorem Waiting_run (w : World) (n : Nat) (c : Cfg) (h1 : AlwaysThrottled w)
    (h3 : ETAsSucceed w) (h : Waiting w c) : Waiting w (run w n c) := by
  induction n generalizing c with
  | zero => exact h
  | succ n ih => exact ih _ (Waiting_step w c h1 h3 h)

theorem Waiting_result (w : World) (c : Cfg) (h : Waiting w c) : c.pc.result = none := by
  rcases h with hpc | ⟨t, k, hpc, _⟩ <;> rw [hpc] <;> rfl

/-- Once the clock stays at or after the reset-instant, the wait loop is left,
for `doRequest` without a send or with an error of `getETA`. -/
theorem wait_ends (w : World) (t : Time) (j : Nat)
    (hj : ∀ i, j ≤ i → (w.Now i).Before t = false) :
    ∀ d (c : Cfg), c.pc = .waitLoop t → j ≤ c.st.reads + d →
      (∃ m, (run w m c).pc = .doRequest ∧ (run w m c).st.sends = c.st.sends) ∨
        ∃ m e, (run w m c).pc = .ret (some e) ∧ IsETAError e := by
  intro d
  induction d using Nat.strong_induction_on with
  | _ d ih =>
    intro c hpc hd
    cases hb : (w.Now c.st.reads).Before t with
    | false =>
      refine Or.inl ⟨1, ?_⟩
      simp only [run]
      rw [step_waitLoop_reached w c t hpc hb]
      exact ⟨rfl, rfl⟩
    | true =>
      have hlt : c.st.reads < j := by
        by_contra hge
        have := hj c.st.reads (by omega)
        rw [this] at hb
        exact absurd hb (by simp)
      cases he : getETA t (w.Now (c.st.reads + 1)) with
      | error e =>
        refine Or.inr ⟨1, e, ?_, getETA_error_kind _ _ e he⟩
        simp only [run]
        exact (step_waitLoop_error w c t e hpc hb he).1
      | ok eta =>
        have hstep := step_waitLoop_sleep w c t eta hpc hb he
        rcases ih (d - 1) (by omega) (step w c) (by rw [hstep])
          (by rw [hstep]; simp only; omega) with ⟨m, hm1, hm2⟩ | ⟨m, e, hm, hk⟩
        · refine Or.inl ⟨m + 1, ?_⟩
          rw [run]
          refine ⟨hm1, ?_⟩
          rw [hm2, hstep]
        · exact Or.inr ⟨m + 1, e, by rw [run]; exact hm, hk⟩

/-- A throttling server whose reset-instants the clock reaches is sent to
again and again, unless `getETA` fails. -/
theorem sends_grow (w : World) (h1 : AlwaysThrottled w) (h2 : ClockReachesResets w)
    (n : Nat) :
    ∀ c : Cfg, c.pc = .doRequest →
      (∃ m, (run w m c).pc = .doRequest ∧ (run w m c).st.sends = c.st.sends + n) ∨
        ∃ m e, (run w m c).pc = .ret (some e) ∧ IsETAError e := by
  induction n with
  | zero => exact fun c hpc => Or.inl ⟨0, hpc, rfl⟩
  | succ n ih =>
    intro c hpc
    rcases ih c hpc with ⟨m, hm1, hm2⟩ | hret
    · obtain ⟨resp, rl, rr, hdo, hA, hP, hthr⟩ := h1 (run w m c).st.sends
      have hstep := step_doRequest_throttled w (run w m c) resp rl rr hm1 hdo hA hP hthr
      have ht : resetInstant (w.Do (run w m c).st.sends) = some (time.Unix rr) := by
        simp [resetInstant, hdo, hP]
      obtain ⟨j, hj⟩ := h2 _ _ ht
      rcases wait_ends w _ j hj j (step w (run w m c)) (by rw [hstep]) (by omega) with
        ⟨m2, hw1, hw2⟩ | ⟨m2, e, hw, hk⟩
      · refine Or.inl ⟨m + 1 + m2, ?_⟩
        rw [run_add, run_succ_last]
        refine ⟨hw1, ?_⟩
        rw [hw2, hstep]
        simp only [St.emit]
        omega
      · refine Or.inr ⟨m + 1 + m2, e, ?_, hk⟩
        rw [run_add, run_succ_last]
        exact hw
    · exact Or.inr hret

/-! ## Retries without bound -/

/-- C9, as stated, fails: the server of `crossingWorld` answers every send with
status 403 and remaining 0, and its clock reaches the reset-instant at its
second reading; yet `addIssue` returns the error of `getETA` after one send,
because the clock went from before the reset-instant to the reset-instant
between the reading of the loop guard and the reading of `getETA`, and it
never sends a second time. -/
theorem addIssue_returns_under_throttling :
    AlwaysThrottled crossingWorld ∧ ClockReachesResets crossingWorld ∧
      (addIssue crossingWorld "o" "r" "t" (recordOf "Y-1" "s" "d") "l" 1 2 St.start).result =
        some (some (.errorsNew "ETA is less than or equal to 0")) ∧
      ¬ ∃ fuel,
        1 < (addIssue crossingWorld "o" "r" "t" (recordOf "Y-1" "s" "d") "l" 1 fuel
          St.start).st.sends := by
  refine ⟨fun _ => ⟨⟨403, rateHeaders "0" "100"⟩, 0, 100, rfl, rfl, rfl, Or.inl (by decide)⟩,
    ?_, rfl, ?_⟩
  · intro k t ht
    have h : resetInstant (crossingWorld.Do k) = some (time.Unix 100) := rfl
    rw [h] at ht
    injection ht with ht
    subst ht
    refine ⟨1, fun i hi => ?_⟩
    have hne : i ≠ 0 := by omega
    simp only [crossingWorld, worldOf, hne, if_false]
    rfl
  · rintro ⟨fuel, hf⟩
    have hb : buildRequest crossingWorld "o" "r" "t" (recordOf "Y-1" "s" "d") "l" 1 =
        .ok (builtRequest "s|d") := rfl
    unfold addIssue at hf
    rw [hb] at hf
    simp only at hf
    have h2 : (run crossingWorld 2 ⟨.doRequest, builtRequest "s|d", St.start⟩).pc =
        .ret (some (.errorsNew "ETA is less than or equal to 0")) := rfl
    have h2s : (run crossingWorld 2 ⟨.doRequest, builtRequest "s|d", St.start⟩).st.sends = 1 := rfl
    have h1s : (run crossingWorld 1 ⟨.doRequest, builtRequest "s|d", St.start⟩).st.sends = 1 := rfl
    have h0s : (run crossingWorld 0 ⟨.doRequest, builtRequest "s|d", St.start⟩).st.sends = 0 := rfl
    rcases Nat.lt_or_ge fuel 2 with hlt | hge
    · interval_cases fuel
      · rw [h0s] at hf
        omega
      · rw [h1s] at hf
        omega
    · obtain ⟨k, rfl⟩ := Nat.exists_eq_add_of_le hge
      rw [run_add, run_ret _ k _ _ h2, h2s] at hf
      omega

/-- A return of the call against a throttling server is the failure of a call
of `getETA` that the run made, with the error of that call. -/
theorem return_is_eta_failure (w : World) (h1 : AlwaysThrottled w) (c0 : Cfg)
    (h0 : c0.pc = .doRequest) (n : Nat) :
    ∀ r, (run w n c0).pc = .ret r →
      ∃ e m t, r = some e ∧ IsETAError e ∧ (run w m c0).pc = .waitLoop t ∧
        (w.Now (run w m c0).st.reads).Before t = true ∧
        getETA t (w.Now ((run w m c0).st.reads + 1)) = .error e := by
  induction n with
  | zero =>
    intro r hr
    simp only [run] at hr
    rw [h0] at hr
    exact absurd hr (by simp)
  | succ n ih =>
    intro r hr
    rw [run_succ_last] at hr
    cases hp : (run w n c0).pc with
    | ret r0 =>
      rw [step_ret w _ r0 hp] at hr
      exact ih r hr
    | doRequest =>
      obtain ⟨resp, rl, rr, hdo, hA, hP, hthr⟩ := h1 (run w n c0).st.sends
      rw [step_doRequest_throttled w _ resp rl rr hp hdo hA hP hthr] at hr
      exact absurd hr (by simp)
    | waitLoop t =>
      cases hb : (w.Now (run w n c0).st.reads).Before t with
      | false =>
        rw [step_waitLoop_reached w _ t hp hb] at hr
        exact absurd hr (by simp)
      | true =>
        cases he : getETA t (w.Now ((run w n c0).st.reads + 1)) with
        | error e =>
          rw [(step_waitLoop_error w _ t e hp hb he).1] at hr
          injection hr with hr
          exact ⟨e, n, t, hr.symm, getETA_error_kind _ _ e he, hp, hb, he⟩
        | ok eta =>
          rw [step_waitLoop_sleep w _ t eta hp hb he] at hr
          exact absurd hr (by simp)

/-- C9, amended: `addIssue` has no maximum retry count. For a call whose request
is built (`json.Marshal` and `http.NewRequest` succeed), against a server that
answers every send with rate-limit headers that parse and with remaining below
5 or status 403, and a clock that eventually reaches each reset-instant:
`addIssue` returns only when a call of `getETA` that it made has failed (the
reading of the loop guard was before the reset-instant and `getETA`, at the
reading that follows, returned an error), and then with that error; and if no
call of `getETA` that it makes fails, then it never returns and for every
natural number n it performs more than n sends, so it blocks indefinitely on
that one record. -/
theorem addIssue_retries_without_bound (w : World) (owner repoName token : String)
    (ytIssue : YouTrackIssue) (label : String) (milestone : Int) (req : Request) (st : St)
    (n : Nat)
    (hb : buildRequest w owner repoName token ytIssue label milestone = .ok req)
    (h1 : AlwaysThrottled w) (h2 : ClockReachesResets w) :
    (∀ fuel r, (addIssue w owner repoName token ytIssue label milestone fuel st).result = some r →
        ∃ e m t, r = some e ∧ IsETAError e ∧
          (run w m ⟨.doRequest, req, st⟩).pc = .waitLoop t ∧
          (w.Now (run w m ⟨.doRequest, req, st⟩).st.reads).Before t = true ∧
          getETA t (w.Now ((run w m ⟨.doRequest, req, st⟩).st.reads + 1)) = .error e) ∧
      (NoETAFailure w ⟨.doRequest, req, st⟩ →
        (∀ fuel, (addIssue w owner repoName token ytIssue label milestone fuel st).result = none) ∧
          ∃ fuel, st.sends + n <
            (addIssue w owner repoName token ytIssue label milestone fuel st).st.sends) := by
  have hres : ∀ fuel, (addIssue w owner repoName token ytIssue label milestone fuel st) =
      ⟨(run w fuel ⟨.doRequest, req, st⟩).pc.result, (run w fuel ⟨.doRequest, req, st⟩).st⟩ := by
    intro fuel
    unfold addIssue
    rw [hb]
  have hA : ∀ fuel r, (addIssue w owner repoName token ytIssue label milestone fuel st).result =
      some r → ∃ e m t, r = some e ∧ IsETAError e ∧
        (run w m ⟨.doRequest, req, st⟩).pc = .waitLoop t ∧
        (w.Now (run w m ⟨.doRequest, req, st⟩).st.reads).Before t = true ∧
        getETA t (w.Now ((run w m ⟨.doRequest, req, st⟩).st.reads + 1)) = .error e := by
    intro fuel r hr
    rw [hres] at hr
    simp only at hr
    cases hp : (run w fuel ⟨.doRequest, req, st⟩).pc with
    | ret r0 =>
      rw [hp] at hr
      simp only [PC.result, Option.some.injEq] at hr
      subst hr
      exact return_is_eta_failure w h1 ⟨.doRequest, req, st⟩ rfl fuel r0 hp
    | doRequest => rw [hp] at hr; simp [PC.result] at hr
    | waitLoop t => rw [hp] at hr; simp [PC.result] at hr
  refine ⟨hA, fun hno => ⟨?_, ?_⟩⟩
  · intro fuel
    cases hr : (addIssue w owner repoName token ytIssue label milestone fuel st).result with
    | none => rfl
    | some r =>
      obtain ⟨e, m, t, _, _, hp, hbef, he⟩ := hA fuel r hr
      obtain ⟨eta, hok⟩ := hno m t hp hbef
      rw [hok] at he
      exact absurd he (by simp)
  · rcases sends_grow w h1 h2 (n + 1) ⟨.doRequest, req, st⟩ rfl with ⟨m, _, hm⟩ | ⟨m, e, hm, _⟩
    · refine ⟨m, ?_⟩
      rw [hres]
      simp only
      rw [hm]
      simp only
      omega
    · obtain ⟨e', m', t, _, _, hp, hbef, he⟩ :=
        return_is_eta_failure w h1 ⟨.doRequest, req, st⟩ rfl m _ hm
      obtain ⟨eta, hok⟩ := hno m' t hp hbef
      rw [hok] at he
      exact absurd he (by simp)

theorem waitingWorld_throttled : AlwaysThrottled waitingWorld :=
  fun _ => ⟨⟨403, rateHeaders "0" "100"⟩, 0, 100, rfl, rfl, rfl, Or.inl (by decide)⟩

theorem waitingWorld_late (i : Nat) (hi : 2 ≤ i) :
    (waitingWorld.Now i).Before (time.Unix 100) = false := by
  have hnow : waitingWorld.Now i = ⟨unixToInternal + 200, 0⟩ := by
    show (if i < 2 then (⟨unixToInternal + 98, 0⟩ : Time) else ⟨unixToInternal + 200, 0⟩) = _
    rw [if_neg (by omega)]
  rw [hnow]
  rfl

theorem waitingWorld_clock : ClockReachesResets waitingWorld := by
  intro k t ht
  have h : resetInstant (waitingWorld.Do k) = some (time.Unix 100) := rfl
  rw [h] at ht
  injection ht with ht
  subst ht
  exact ⟨2, waitingWorld_late⟩

/-- In `waitingWorld` the run is at the start of the clock, where its one call of
`getETA` is made, or past its second reading, and it waits for Unix second 100. -/
theorem waitingWorld_run (n : Nat) :
    ∀ c : Cfg, ((c.st.reads = 0 ∨ 2 ≤ c.st.reads) ∧ ∀ t, c.pc = .waitLoop t → t = time.Unix 100) →
      ∀ t, (run waitingWorld n c).pc = .waitLoop t →
        t = time.Unix 100 ∧
          ((run waitingWorld n c).st.reads = 0 ∨ 2 ≤ (run waitingWorld n c).st.reads) := by
  induction n with
  | zero => exact fun c h t ht => ⟨h.2 t ht, h.1⟩
  | succ n ih =>
    intro c h
    rw [run]
    cases hp : c.pc with
    | ret r0 =>
      rw [step_ret waitingWorld c r0 hp]
      exact ih c h
    | doRequest =>
      have hstep := step_doRequest_throttled waitingWorld c ⟨403, rateHeaders "0" "100"⟩ 0 100 hp
        rfl rfl rfl (Or.inl (by decide))
      apply ih
      rw [hstep]
      refine ⟨h.1, fun t ht => ?_⟩
      injection ht with ht
      exact ht.symm
    | waitLoop t0 =>
      have ht0 := h.2 t0 hp
      subst ht0
      cases hb : (waitingWorld.Now c.st.reads).Before (time.Unix 100) with
      | false =>
        apply ih
        rw [step_waitLoop_reached waitingWorld c _ hp hb]
        refine ⟨?_, fun t ht => absurd ht (by simp)⟩
        right
        simp only [St.emit]
        rcases h.1 with h0 | h2
        · rw [h0] at hb
          exact absurd hb (by decide)
        · omega
      | true =>
        cases he : getETA (time.Unix 100) (waitingWorld.Now (c.st.reads + 1)) with
        | error e =>
          have hret := (step_waitLoop_error waitingWorld c _ e hp hb he).1
          intro t ht
          rw [run_ret waitingWorld n _ _ hret, hret] at ht
          exact absurd ht (by simp)
        | ok eta =>
          apply ih
          rw [step_waitLoop_sleep waitingWorld c _ eta hp hb he]
          refine ⟨Or.inr (by simp only; omega), fun t ht => ?_⟩
          injection ht with ht
          exact ht.symm

theorem waitingWorld_etas (req : Request) :
    NoETAFailure waitingWorld ⟨.doRequest, req, St.start⟩ := by
  intro n t hp hb
  obtain ⟨ht, hreads⟩ := waitingWorld_run n ⟨.doRequest, req, St.start⟩
    ⟨Or.inl rfl, fun t h => absurd h (by simp)⟩ t hp
  subst ht
  rcases hreads with h0 | h2
  · rw [h0]
    exact ⟨2000000000, rfl⟩
  · rw [waitingWorld_late _ h2] at hb
    exact absurd hb (by simp)

/-- An instance of `addIssue_retries_without_bound`: in `waitingWorld` the call
sleeps two seconds after its first send, its one call of `getETA` succeeds, it
never returns and it sends more than twice. -/
theorem addIssue_retries_without_bound_witness :
    (addIssue waitingWorld "o" "r" "t" (recordOf "Y-1" "s" "d") "l" 1 2 St.start).st.trace =
        [.send (builtRequest "s|d") (.ok ⟨403, rateHeaders "0" "100"⟩),
          .now ⟨unixToInternal + 98, 0⟩, .now ⟨unixToInternal + 98, 0⟩,
          .logWaiting 2000000000, .sleep 2000000000] ∧
      (∀ fuel,
        (addIssue waitingWorld "o" "r" "t" (recordOf "Y-1" "s" "d") "l" 1 fuel St.start).result =
          none) ∧
      ∃ fuel,
        2 < (addIssue waitingWorld "o" "r" "t" (recordOf "Y-1" "s" "d") "l" 1 fuel
          St.start).st.sends :=
  have h := (addIssue_retries_without_bound waitingWorld "o" "r" "t" (recordOf "Y-1" "s" "d") "l"
    1 (builtRequest "s|d") St.start 2 rfl waitingWorld_throttled waitingWorld_clock).2
    (waitingWorld_etas (builtRequest "s|d"))
  ⟨rfl, h.1, by simpa [St.start] using h.2⟩

/-! ## The decimal rendering of a status code -/

theorem dispatched_append (l1 l2 : List Event) :
    dispatched (l1 ++ l2) = dispatched l1 ++ dispatched l2 := by
  induction l1 with
  | nil => rfl
  | cons e l ih => cases e <;> simp [dispatched, ih]

/-- The events that `addIssue` appends are no calls of `addIssue`. -/
theorem step_dispatched (w : World) (c : Cfg) :
    dispatched (step w c).st.trace = dispatched c.st.trace := by
  cases hp : c.pc with
  | ret r0 => rw [step_ret w c r0 hp]
  | doRequest =>
    unfold step
    rw [hp]
    simp only [St.emit]
    cases w.Do c.st.sends with
    | error msg => simp [dispatched_append, dispatched]
    | ok resp =>
      simp only
      cases strconv.Atoi (resp.Header.Get "X-Ratelimit-Remaining") with
      | error e => simp [dispatched_append, dispatched]
      | ok rl =>
        simp only
        cases strconv.ParseInt (resp.Header.Get "X-Ratelimit-Reset") with
        | error e => simp [dispatched_append, dispatched]
        | ok rr =>
          simp only
          split
          · simp [dispatched_append, dispatched]
          · split <;> simp [dispatched_append, dispatched]
  | waitLoop t =>
    cases hb : (w.Now c.st.reads).Before t with
    | false =>
      rw [step_waitLoop_reached w c t hp hb]
      simp [St.emit, dispatched_append, dispatched]
    | true =>
      cases he : getETA t (w.Now (c.st.reads + 1)) with
      | error e =>
        unfold step
        rw [hp]
        simp [hb, St.emit, he, dispatched_append, dispatched]
      | ok eta =>
        rw [step_waitLoop_sleep w c t eta hp hb he]
        simp [dispatched_append, dispatched]

theorem run_dispatched (w : World) (n : Nat) (c : Cfg) :
    dispatched (run w n c).st.trace = dispatched c.st.trace := by
  induction n generalizing c with
  | zero => rfl
  | succ n ih => rw [run, ih, step_dispatched]

theorem addIssue_dispatched (w : World) (owner repoName token : String)
    (ytIssue : YouTrackIssue) (label : String) (milestone : Int) (fuel : Nat) (st : St) :
    dispatched (addIssue w owner repoName token ytIssue label milestone fuel st).st.trace =
      dispatched st.trace := by
  unfold addIssue
  split
  · rfl
  · exact run_dispatched w fuel _

/-- The records that the batch loop passes to `addIssue` are, in order, a
beginning of the records it was given: all of them when it finishes, which it
does when every call returns, and at least the first one. -/
theorem batchLoop_dispatched (w : World) (user repo token label : String) (milestone : Int)
    (fuel : Nat) (issues : List YouTrackIssue) :
    ∀ st : St, ∃ done : List YouTrackIssue, done <+: issues ∧
      dispatched (batchLoop w user repo token label milestone fuel issues st).2.trace =
        dispatched st.trace ++ done ∧
      (issues ≠ [] → done ≠ []) ∧
      ((batchLoop w user repo token label milestone fuel issues st).1 = .finished →
        done = issues) ∧
      ((∀ issue st0, (addIssue w user repo token issue label milestone fuel st0).result ≠ none) →
        (batchLoop w user repo token label milestone fuel issues st).1 = .finished) := by
  induction issues with
  | nil =>
    intro st
    exact ⟨[], List.prefix_refl _, by simp [batchLoop], fun h => absurd rfl h, fun _ => rfl,
      fun _ => rfl⟩
  | cons issue rest ih =>
    intro st
    have hd := addIssue_dispatched w user repo token issue label milestone fuel
      (st.emit (.call user repo token issue label milestone))
    simp only [St.emit, dispatched_append, dispatched, List.append_nil] at hd
    unfold batchLoop
    simp only
    cases hr : (addIssue w user repo token issue label milestone fuel
        (st.emit (.call user repo token issue label milestone))).result with
    | none =>
      refine ⟨[issue], by simp, ?_, fun _ => by simp, ?_, ?_⟩
      · simp only [St.emit]
        exact hd
      · intro h
        exact absurd h (by simp)
      · intro h
        exact absurd hr (h _ _)
    | some err =>
      simp only
      obtain ⟨done, hpre, hdis, _, hfin, hall⟩ := ih
        ((match err with
          | none => (addIssue w user repo token issue label milestone fuel
              (st.emit (.call user repo token issue label milestone))).st.emit
                (.logCreated issue.IssueId)
          | some e => (addIssue w user repo token issue label milestone fuel
              (st.emit (.call user repo token issue label milestone))).st.emit
                (.logUnable issue.IssueId e)).emit (.sleep (2 * 10 ^ 9)))
      refine ⟨issue :: done, by simpa using hpre, ?_, fun _ => by simp, ?_, hall⟩
      · rw [hdis]
        cases err <;> simp [St.emit, dispatched_append, dispatched, hd]
      · intro h
        rw [hfin h]

theorem addIssue_trace_extends (w : World) (owner repoName token : String)
    (ytIssue : YouTrackIssue) (label : String) (milestone : Int) (fuel : Nat) (st : St) :
    ∃ new, (addIssue w owner repoName token ytIssue label milestone fuel st).st.trace =
      st.trace ++ new := by
  unfold addIssue
  split
  · exact ⟨[], by simp⟩
  · rename_i req _
    obtain ⟨new, hnew, _⟩ := WatchInv_run w st.trace fuel _ (WatchInv_start req st)
    exact ⟨new, hnew⟩

/-- The batch loop only appends to the trace, and ends finished or blocked. -/
theorem batchLoop_extends (w : World) (user repo token label : String) (milestone : Int)
    (fuel : Nat) (issues : List YouTrackIssue) :
    ∀ st : St,
      (∃ new, (batchLoop w user repo token label milestone fuel issues st).2.trace =
        st.trace ++ new) ∧
      ((batchLoop w user repo token label milestone fuel issues st).1 = .finished ∨
        (batchLoop w user repo token label milestone fuel issues st).1 = .blocked) := by
  induction issues with
  | nil => exact fun st => ⟨⟨[], by simp [batchLoop]⟩, Or.inl rfl⟩
  | cons issue rest ih =>
    intro st
    obtain ⟨new, hnew⟩ := addIssue_trace_extends w user repo token issue label milestone fuel
      (st.emit (.call user repo token issue label milestone))
    unfold batchLoop
    simp only
    cases hr : (addIssue w user repo token issue label milestone fuel
        (st.emit (.call user repo token issue label milestone))).result with
    | none =>
      refine ⟨⟨[.call user repo token issue label milestone] ++ new, ?_⟩, Or.inr rfl⟩
      simp only
      rw [hnew]
      simp [St.emit]
    | some err =>
      simp only
      obtain ⟨⟨new2, hnew2⟩, hex⟩ := ih
        ((match err with
          | none => (addIssue w user repo token issue label milestone fuel
              (st.emit (.call user repo token issue label milestone))).st.emit
                (.logCreated issue.IssueId)
          | some e => (addIssue w user repo token issue label milestone fuel
              (st.emit (.call user repo token issue label milestone))).st.emit
                (.logUnable issue.IssueId e)).emit (.sleep (2 * 10 ^ 9)))
      refine ⟨?_, hex⟩
      rw [hnew2]
      cases err with
      | none =>
        refine ⟨[.call user repo token issue label milestone] ++ new ++
          [.logCreated issue.IssueId] ++ [.sleep (2 * 10 ^ 9)] ++ new2, ?_⟩
        simp only [St.emit] at hnew ⊢
        rw [hnew]
        simp
      | some e =>
        refine ⟨[.call user repo token issue label milestone] ++ new ++
          [.logUnable issue.IssueId e] ++ [.sleep (2 * 10 ^ 9)] ++ new2, ?_⟩
        simp only [St.emit] at hnew ⊢
        rw [hnew]
        simp

/-- A call that has returned within `fuel` steps has the same outcome with
more steps. -/
theorem addIssue_mono (w : World) (owner repoName token : String) (ytIssue : YouTrackIssue)
    (label : String) (milestone : Int) (fuel more : Nat) (st : St) (err : Option GoError)
    (h : (addIssue w owner repoName token ytIssue label milestone fuel st).result = some err)
    (hle : fuel ≤ more) :
    addIssue w owner repoName token ytIssue label milestone more st =
      addIssue w owner repoName token ytIssue label milestone fuel st := by
  obtain ⟨k, rfl⟩ := Nat.exists_eq_add_of_le hle
  unfold addIssue at h ⊢
  cases hb : buildRequest w owner repoName token ytIssue label milestone with
  | error e => rfl
  | ok req =>
    rw [hb] at h
    simp only at h ⊢
    cases hp : (run w fuel ⟨.doRequest, req, st⟩).pc with
    | ret r0 =>
      rw [run_add, run_ret w k _ r0 hp]
      simp only [hp]
    | doRequest => rw [hp] at h; simp [PC.result] at h
    | waitLoop t => rw [hp] at h; simp [PC.result] at h

/-- When every call that the batch loop makes returns, the loop finishes, given
enough steps for each call. -/
theorem batchLoop_finishes (w : World) (user repo token label : String) (milestone : Int)
    (issues : List YouTrackIssue) :
    ∀ st : St, EveryCallReturns w user repo token label milestone issues st →
      ∃ enough, ∀ fuel, enough ≤ fuel →
        (batchLoop w user repo token label milestone fuel issues st).1 = .finished := by
  induction issues with
  | nil => exact fun st _ => ⟨0, fun fuel _ => rfl⟩
  | cons issue rest ih =>
    intro st h
    obtain ⟨f, err, hret, hrest⟩ := h
    obtain ⟨enough, hen⟩ := ih _ hrest
    refine ⟨max f enough, fun fuel hfuel => ?_⟩
    have hmono := addIssue_mono w user repo token issue label milestone f fuel
      (st.emit (.call user repo token issue label milestone)) err hret (by omega)
    unfold batchLoop
    simp only
    rw [hmono, hret]
    simp only
    exact hen fuel (by omega)

theorem stuckTwoRecords_blocks (fuel : Nat) (issue : YouTrackIssue) (st : St) :
    (addIssue stuckTwoRecords "o" "r" "tok" issue "l" 1 fuel st).result = none := by
  have h1 : AlwaysThrottled stuckTwoRecords :=
    fun _ => ⟨⟨403, rateHeaders "0" "100"⟩, 0, 100, rfl, rfl, rfl, Or.inl (by decide)⟩
  have h3 : ETAsSucceed stuckTwoRecords := by
    intro k t ht i hb
    have h : resetInstant (stuckTwoRecords.Do k) = some (time.Unix 100) := rfl
    rw [h] at ht
    injection ht with ht
    subst ht
    have : (stuckTwoRecords.Now i).Before (time.Unix 100) = false := rfl
    rw [this] at hb
    exact absurd hb (by simp)
  unfold addIssue
  split
  · rename_i e hb
    simp [buildRequest, NewRequest, stuckTwoRecords, hammeredWorld, worldOf] at hb
  · rename_i req _
    exact Waiting_result stuckTwoRecords _
      (Waiting_run stuckTwoRecords fuel ⟨.doRequest, req, st⟩ h1 h3 (Or.inl rfl))

/-- C7, as stated, fails: in `stuckTwoRecords` the file decodes to two records
and the token is no legacy token, but the server throttles every send and the
call of `addIssue` for the first record never returns; however long the run,
the second record is never passed to `addIssue`, so there is one dispatch
attempt for two decoded records. -/
theorem main_blocked_on_first_record :
    parseYouTrackIssues stuckTwoRecords "in.csv" =
        .ok [recordOf "Y-1" "s1" "d1", recordOf "Y-2" "s2" "d2"] ∧
      isLegacyToken "tok" = false ∧
      ¬ ∃ fuel,
        dispatched (main stuckTwoRecords ["prog", "tok", "o", "r", "in.csv", "l", "1"] fuel).2.trace ≠
          [recordOf "Y-1" "s1" "d1"] := by
  refine ⟨rfl, rfl, ?_⟩
  rintro ⟨fuel, hne⟩
  apply hne
  have hmain : main stuckTwoRecords ["prog", "tok", "o", "r", "in.csv", "l", "1"] fuel =
      batchLoop stuckTwoRecords "o" "r" "tok" "l" 1 fuel
        [recordOf "Y-1" "s1" "d1", recordOf "Y-2" "s2" "d2"]
        (St.start.emit (.println noticeText)) := rfl
  rw [hmain]
  unfold batchLoop
  simp only
  rw [stuckTwoRecords_blocks]
  simp only
  rw [addIssue_dispatched]
  rfl

/-- C7, amended: for every decoded sequence of records and every token that is
not a legacy token, the records that `main` passes to `addIssue` are at every
moment, in file order and once each, a beginning of the decoded sequence; the
run never ends on the error of a record: it is finished, or inside a call of
`addIssue` that has not returned; and when every call of `addIssue` that the run
makes returns, whether `nil` or an error, then, given enough steps, `main`
finishes and the sequence of records passed to `addIssue` is the decoded
sequence, so there are as many dispatch attempts as decoded records. -/
theorem main_dispatches_every_record (w : World)
    (prog token user repo inputFile label milestoneArg : String) (milestone : Int)
    (youtrackIssues : List YouTrackIssue)
    (hm : strconv.ParseInt milestoneArg = .ok milestone)
    (hp : parseYouTrackIssues w inputFile = .ok youtrackIssues)
    (ht : isLegacyToken token = false) :
    (∀ fuel,
        dispatched (main w [prog, token, user, repo, inputFile, label, milestoneArg] fuel).2.trace
          <+: youtrackIssues) ∧
      (∀ fuel,
        (main w [prog, token, user, repo, inputFile, label, milestoneArg] fuel).1 = .finished ∨
          (main w [prog, token, user, repo, inputFile, label, milestoneArg] fuel).1 = .blocked) ∧
      (∀ fuel,
        (main w [prog, token, user, repo, inputFile, label, milestoneArg] fuel).1 = .finished →
        dispatched (main w [prog, token, user, repo, inputFile, label, milestoneArg] fuel).2.trace =
          youtrackIssues) ∧
      (EveryCallReturns w user repo token label milestone youtrackIssues
          (St.start.emit (.println noticeText)) →
        ∃ enough, ∀ fuel, enough ≤ fuel →
          (main w [prog, token, user, repo, inputFile, label, milestoneArg] fuel).1 = .finished ∧
          dispatched
            (main w [prog, token, user, repo, inputFile, label, milestoneArg] fuel).2.trace =
            youtrackIssues ∧
          (dispatched
            (main w [prog, token, user, repo, inputFile, label, milestoneArg]
              fuel).2.trace).length = youtrackIssues.length) := by
  have hmain : ∀ fuel, main w [prog, token, user, repo, inputFile, label, milestoneArg] fuel =
      batchLoop w user repo token label milestone fuel youtrackIssues
        (St.start.emit (.println noticeText)) := by
    intro fuel
    simp [main, hm, hp, ht]
  have hkey : ∀ fuel,
      dispatched (batchLoop w user repo token label milestone fuel youtrackIssues
        (St.start.emit (.println noticeText))).2.trace <+: youtrackIssues ∧
      ((batchLoop w user repo token label milestone fuel youtrackIssues
        (St.start.emit (.println noticeText))).1 = .finished →
        dispatched (batchLoop w user repo token label milestone fuel youtrackIssues
          (St.start.emit (.println noticeText))).2.trace = youtrackIssues) := by
    intro fuel
    obtain ⟨done, hpre, hdis, _, hfin, _⟩ := batchLoop_dispatched w user repo token label
      milestone fuel youtrackIssues (St.start.emit (.println noticeText))
    have hdis2 : dispatched (batchLoop w user repo token label milestone fuel youtrackIssues
        (St.start.emit (.println noticeText))).2.trace = done := by
      rw [hdis]
      simp [St.emit, St.start, dispatched]
    rw [hdis2]
    exact ⟨hpre, hfin⟩
  refine ⟨fun fuel => ?_, fun fuel => ?_, fun fuel => ?_, fun hall => ?_⟩
  · rw [hmain]
    exact (hkey fuel).1
  · rw [hmain]
    exact (batchLoop_extends w user repo token label milestone fuel youtrackIssues
      (St.start.emit (.println noticeText))).2
  · rw [hmain]
    exact (hkey fuel).2
  · obtain ⟨enough, hen⟩ := batchLoop_finishes w user repo token label milestone youtrackIssues
      _ hall
    refine ⟨enough, fun fuel hfuel => ?_⟩
    rw [hmain]
    have hf := hen fuel hfuel
    have hd := (hkey fuel).2 hf
    exact ⟨hf, hd, by rw [hd]⟩

/-- An instance of `main_dispatches_every_record`: in `twoRecords` the first call
returns an error, the second `nil`, and both records are dispatched. -/
theorem main_dispatches_every_record_witness :
    ∃ enough, ∀ fuel, enough ≤ fuel →
      (main twoRecords ["prog", "tok", "o", "r", "in.csv", "l", "1"] fuel).1 = .finished ∧
      dispatched (main twoRecords ["prog", "tok", "o", "r", "in.csv", "l", "1"] fuel).2.trace =
        [recordOf "Y-1" "s1" "d1", recordOf "Y-2" "s2" "d2"] ∧
      (dispatched
        (main twoRecords ["prog", "tok", "o", "r", "in.csv", "l", "1"] fuel).2.trace).length = 2 :=
  (main_dispatches_every_record twoRecords "prog" "tok" "o" "r" "in.csv" "l" "1" 1
    [recordOf "Y-1" "s1" "d1", recordOf "Y-2" "s2" "d2"] rfl rfl rfl).2.2.2
    ⟨1, some (statusError 500), rfl, 1, none, rfl, trivial⟩

/-! ## The legacy token -/

theorem sentRequests_append (l1 l2 : List Event) :
    sentRequests (l1 ++ l2) = sentRequests l1 ++ sentRequests l2 := by
  induction l1 with
  | nil => rfl
  | cons e l ih => cases e <;> simp [sentRequests, ih]

theorem sentSeq_succ (req : Request) (k : Nat) :
    sentSeq req (k + 1) =
      sentSeq req k ++ [if k = 0 then req else { req with Body := "" }] := by
  cases k with
  | zero => rfl
  | succ j =>
    simp only [sentSeq, Nat.add_one_ne_zero, if_false, List.cons_append]
    rw [List.replicate_succ']

theorem SentInv_step (w : World) (base : List Event) (req : Request) (c : Cfg)
    (h : SentInv base req c) : SentInv base req (step w c) := by
  obtain ⟨k, hs, hreq⟩ := h
  cases hp : c.pc with
  | ret r0 => rw [step_ret w c r0 hp]; exact ⟨k, hs, hreq⟩
  | doRequest =>
    have key : sentRequests (step w c).st.trace = sentRequests c.st.trace ++ [c.req] ∧
        (step w c).req = { c.req with Body := "" } := by
      unfold step
      rw [hp]
      simp only [St.emit]
      cases w.Do c.st.sends with
      | error msg => simp [sentRequests_append, sentRequests]
      | ok resp =>
        simp only
        cases strconv.Atoi (resp.Header.Get "X-Ratelimit-Remaining") with
        | error e => simp [sentRequests_append, sentRequests]
        | ok rl =>
          simp only
          cases strconv.ParseInt (resp.Header.Get "X-Ratelimit-Reset") with
          | error e => simp [sentRequests_append, sentRequests]
          | ok rr =>
            simp only
            split
            · simp [sentRequests_append, sentRequests]
            · split <;> simp [sentRequests_append, sentRequests]
    refine ⟨k + 1, ?_, ?_⟩
    · rw [key.1, hs, sentSeq_succ, hreq, List.append_assoc]
    · rw [key.2, hreq]
      by_cases hk : k = 0 <;> simp [hk]
  | waitLoop t =>
    have key : sentRequests (step w c).st.trace = sentRequests c.st.trace ∧
        (step w c).req = c.req := by
      cases hb : (w.Now c.st.reads).Before t with
      | false =>
        rw [step_waitLoop_reached w c t hp hb]
        simp [St.emit, sentRequests_append, sentRequests]
      | true =>
        cases he : getETA t (w.Now (c.st.reads + 1)) with
        | error e =>
          unfold step
          rw [hp]
          simp [hb, St.emit, he, sentRequests_append, sentRequests]
        | ok eta =>
          rw [step_waitLoop_sleep w c t eta hp hb he]
          simp [sentRequests_append, sentRequests]
    exact ⟨k, by rw [key.1, hs], by rw [key.2, hreq]⟩

theorem SentInv_run (w : World) (base : List Event) (req : Request) (n : Nat) (c : Cfg)
    (h : SentInv base req c) : SentInv base req (run w n c) := by
  induction n generalizing c with
  | zero => exact h
  | succ n ih => exact ih _ (SentInv_step w base req c h)

/-- The request that `addIssue` builds from a record. -/
theorem buildRequest_ok (w : World) (owner repoName token : String) (ytIssue : YouTrackIssue)
    (label : String) (milestone : Int) (data : String)
    (hdata : w.Marshal
      { Title := ytIssue.Summary, Body := ytIssue.Description, Assignees := [owner],
        Labels := [label], Milestone := milestone } = .ok data)
    (hurl : w.urlError ("https://api.github.com/repos/" ++ owner ++ "/" ++ repoName ++ "/issues") =
      none) :
    buildRequest w owner repoName token ytIssue label milestone =
      .ok
        { Method := "POST"
          URL := "https://api.github.com/repos/" ++ owner ++ "/" ++ repoName ++ "/issues"
          Header := [("Accept", "application/vnd.github+json"),
            ("Authorization", "Bearer " ++ token), ("X-Github-Api-Version", "2022-11-28")]
          Body := data } := by
  unfold buildRequest
  simp only [hdata, NewRequest, hurl]
  rfl

/-- The requests of one call: every request handed to `client.Do` during one call
of `addIssue` has the method, URL and headers of the request built once from
the record, and the first one has the marshalled issue as its body; every
re-send hands over that same request object with its body reader at its end,
so with nothing left to send as a body. -/
theorem addIssue_sent_requests (w : World) (owner repoName token : String)
    (ytIssue : YouTrackIssue) (label : String) (milestone : Int) (data : String) (fuel : Nat)
    (st : St)
    (hdata : w.Marshal
      { Title := ytIssue.Summary, Body := ytIssue.Description, Assignees := [owner],
        Labels := [label], Milestone := milestone } = .ok data)
    (hurl : w.urlError ("https://api.github.com/repos/" ++ owner ++ "/" ++ repoName ++ "/issues") =
      none) :
    ∃ k, sentRequests (addIssue w owner repoName token ytIssue label milestone fuel st).st.trace =
      sentRequests st.trace ++
        sentSeq
          { Method := "POST"
            URL := "https://api.github.com/repos/" ++ owner ++ "/" ++ repoName ++ "/issues"
            Header := [("Accept", "application/vnd.github+json"),
              ("Authorization", "Bearer " ++ token), ("X-Github-Api-Version", "2022-11-28")]
            Body := data } k := by
  have hb := buildRequest_ok w owner repoName token ytIssue label milestone data hdata hurl
  unfold addIssue
  rw [hb]
  simp only
  obtain ⟨k, hk, _⟩ := SentInv_run w st.trace _ fuel ⟨.doRequest, _, st⟩ ⟨0, by simp [sentSeq], rfl⟩
  exact ⟨k, hk⟩

/-- C4 at a throttled first answer: in `throttledOnce` the first send hands over
the request with body `s|d`, the re-send the same request with nothing left
to read as a body. -/
theorem addIssue_resend_body_read :
    sentRequests
        (addIssue throttledOnce "o" "r" "t" (recordOf "Y-1" "s" "d") "l" 1 4 St.start).st.trace =
        [builtRequest "s|d", builtRequest ""] ∧
      (builtRequest "").Body ≠ (builtRequest "s|d").Body :=
  ⟨rfl, by decide⟩

end Youtrack2Github
